import Mathlib

/-!
Verification of the pkm dependency-resolution core.

The development shallowly embeds the code of `pkm_main/versions/pubgrub.py`
(the PubGrub solver), `pkm/api/repositories/repository_loader.py` (the
composite repository), `pkm/project_builders/external_builders.py` (the build
orchestrator and its cycle guard), `pkm/api/repositories/local_pythons_repository.py`
(interpreter discovery) and `pkm/utils/dicts.py` (`udict_hash`).

The version and version-specifier algebra (`pkm/api/versions/version.py` and
`version_specifiers.py`) is not part of the source tree that was provided, so
it is modelled from the specification: versions form a totally ordered value
(here an arbitrary linear order `V`), and a `VersionSpecifier` is the sum type
`Any | SpecificVersion v | VersionRange(min?, max?, include_min, include_max) |
VersionUnion(ranges)` closed under `intersect`, `union`, `inverse`,
`difference`, `allows_version`, `allows_all`, `allows_any`, `is_none`.
-/

namespace PkmProof

/-- Decidable equality of `Except` results, used to evaluate runs of the
embedded code on concrete inputs. -/
instance {ε α : Type} [DecidableEq ε] [DecidableEq α] : DecidableEq (Except ε α)
  | .ok x, .ok y =>
    if h : x = y then isTrue (by rw [h]) else isFalse (fun c => h (Except.ok.inj c))
  | .error x, .error y =>
    if h : x = y then isTrue (by rw [h]) else isFalse (fun c => h (Except.error.inj c))
  | .ok _, .error _ => isFalse (fun c => Except.noConfusion c)
  | .error _, .ok _ => isFalse (fun c => Except.noConfusion c)

section VersionAlgebra

variable {V : Type} [LinearOrder V]

/-- Modelled from the spec: `VersionRange(min?, max?, include_min, include_max)`,
one of the canonical shapes of a version specifier. -/
structure VRange (V : Type) where
  min : Option V := none
  max : Option V := none
  includeMin : Bool := false
  includeMax : Bool := false
deriving DecidableEq

/-- Modelled from the spec: the `VersionSpecifier` sum type
`Any | SpecificVersion(v) | VersionRange(...) | VersionUnion(range_1, ..., range_k)`;
the canonical empty specifier (`None`) is the empty union. `AnyVersion` is the
`any` shape and behaves as the full range (no bounds). -/
inductive VersionSpecifier (V : Type) where
  | any : VersionSpecifier V
  | specific (v : V) : VersionSpecifier V
  | vrange (r : VRange V) : VersionSpecifier V
  | vunion (ranges : List (VRange V)) : VersionSpecifier V
deriving DecidableEq

/-- Does the value `v` pass the lower bound of the range. -/
def VRange.aboveMin (r : VRange V) (v : V) : Bool :=
  match r.min with
  | none => true
  | some m => if r.includeMin then m ≤ v else m < v

/-- Does the value `v` pass the upper bound of the range. -/
def VRange.belowMax (r : VRange V) (v : V) : Bool :=
  match r.max with
  | none => true
  | some m => if r.includeMax then v ≤ m else v < m

/-- Membership of a version in a range. -/
def VRange.mem (r : VRange V) (v : V) : Bool :=
  r.aboveMin v && r.belowMax v

/-- Modelled from the spec: `allows_version(v)` membership test of a specifier. -/
def VersionSpecifier.allowsVersion : VersionSpecifier V → V → Bool
  | .any, _ => true
  | .specific w, v => v = w
  | .vrange r, v => r.mem v
  | .vunion rs, v => rs.any (fun r => r.mem v)

/-- Ranges whose bounds already show them to be empty (lower bound above upper
bound, or equal bounds not both inclusive). -/
def VRange.emptyByBounds (r : VRange V) : Bool :=
  match r.min, r.max with
  | some a, some b => b < a || (a = b && !(r.includeMin && r.includeMax))
  | _, _ => false

/-- The tighter of two lower bounds (`none` is minus infinity); on equal bounds
the result is inclusive only when both are. -/
def tightLower : Option V × Bool → Option V × Bool → Option V × Bool
  | (none, _), y => y
  | (some a, ia), (none, _) => (some a, ia)
  | (some a, ia), (some b, ib) =>
    if a < b then (some b, ib) else if b < a then (some a, ia) else (some a, ia && ib)

/-- The tighter of two upper bounds (`none` is plus infinity). -/
def tightUpper : Option V × Bool → Option V × Bool → Option V × Bool
  | (none, _), y => y
  | (some a, ia), (none, _) => (some a, ia)
  | (some a, ia), (some b, ib) =>
    if a < b then (some a, ia) else if b < a then (some b, ib) else (some a, ia && ib)

/-- Intersection of two ranges; `none` when the result is empty. -/
def VRange.interR (r₁ r₂ : VRange V) : Option (VRange V) :=
  let lo := tightLower (r₁.min, r₁.includeMin) (r₂.min, r₂.includeMin)
  let hi := tightUpper (r₁.max, r₁.includeMax) (r₂.max, r₂.includeMax)
  let r : VRange V := ⟨lo.1, hi.1, lo.2, hi.2⟩
  if r.emptyByBounds then none else some r

/-- Complement of a single range, as a union of at most two ranges. -/
def VRange.compl (r : VRange V) : List (VRange V) :=
  (match r.min with
   | none => []
   | some m => [⟨none, some m, false, !r.includeMin⟩]) ++
  (match r.max with
   | none => []
   | some m => [⟨some m, none, !r.includeMax, false⟩])

/-- Pairwise intersection of two unions of ranges, dropping empty results. -/
def interRanges (l₁ l₂ : List (VRange V)) : List (VRange V) :=
  l₁.flatMap fun r₁ => l₂.filterMap fun r₂ => r₁.interR r₂

/-- Complement of a union of ranges: the intersection of the complements. -/
def complRanges (l : List (VRange V)) : List (VRange V) :=
  l.foldl (fun acc r => interRanges acc r.compl) [{ : VRange V }]

/-- View of any specifier as a union of ranges. -/
def VersionSpecifier.ranges : VersionSpecifier V → List (VRange V)
  | .any => [{}]
  | .specific v => [⟨some v, some v, true, true⟩]
  | .vrange r => [r]
  | .vunion rs => rs

/-- Modelled from the spec: `intersect` of two specifiers. -/
def VersionSpecifier.intersect (s₁ s₂ : VersionSpecifier V) : VersionSpecifier V :=
  .vunion (interRanges s₁.ranges s₂.ranges)

/-- Modelled from the spec: `inverse` (complement) of a specifier. -/
def VersionSpecifier.inverse (s : VersionSpecifier V) : VersionSpecifier V :=
  .vunion (complRanges s.ranges)

/-- Modelled from the spec: `is_none()` holds for the canonical empty shape,
the empty union. -/
def VersionSpecifier.isNoneSpec : VersionSpecifier V → Bool
  | .vunion [] => true
  | _ => false

/-- Modelled from the spec: `difference(a, b) = intersect(a, inverse(b))`. -/
def VersionSpecifier.difference (s₁ s₂ : VersionSpecifier V) : VersionSpecifier V :=
  s₁.intersect s₂.inverse

/-- Modelled from the spec: `allows_all(other)` — the specifier allows every
version the other allows (computed as `difference(other, self).is_none()`). -/
def VersionSpecifier.allowsAll (s₁ s₂ : VersionSpecifier V) : Bool :=
  (s₂.difference s₁).isNoneSpec

/-- Modelled from the spec: `allows_any(other)` — the two specifiers overlap. -/
def VersionSpecifier.allowsAny (s₁ s₂ : VersionSpecifier V) : Bool :=
  !(s₁.intersect s₂).isNoneSpec

/-- Rendering of an optional bound, used by the solver's human-readable
incompatibility causes. -/
def showBound [ToString V] : Option V → String
  | none => ""
  | some v => toString v

/-- Rendering of a range. -/
def VRange.show [ToString V] (r : VRange V) : String :=
  (if r.includeMin then "[" else "(") ++ showBound r.min ++ "," ++ showBound r.max ++
    (if r.includeMax then "]" else ")")

/-- Rendering of a specifier. -/
def VersionSpecifier.show [ToString V] : VersionSpecifier V → String
  | .any => "*"
  | .specific v => toString v
  | .vrange r => r.show
  | .vunion rs => String.intercalate " || " (rs.map VRange.show)

/-- Membership of a version in a union of ranges (the proof-side view of a
specifier's range list). -/
def memRanges (l : List (VRange V)) (v : V) : Bool :=
  l.any (fun r => r.mem v)

/-- A bound paired with its inclusiveness flag, read as a lower-bound test. -/
def boundAbove (b : Option V × Bool) (v : V) : Bool :=
  match b.1 with
  | none => true
  | some m => if b.2 then m ≤ v else m < v

/-- A bound paired with its inclusiveness flag, read as an upper-bound test. -/
def boundBelow (b : Option V × Bool) (v : V) : Bool :=
  match b.1 with
  | none => true
  | some m => if b.2 then v ≤ m else v < m

/-- The candidate range built inside `VRange.interR` before the emptiness
filter. -/
def VRange.interCore (r₁ r₂ : VRange V) : VRange V :=
  ⟨(tightLower (r₁.min, r₁.includeMin) (r₂.min, r₂.includeMin)).1,
   (tightUpper (r₁.max, r₁.includeMax) (r₂.max, r₂.includeMax)).1,
   (tightLower (r₁.min, r₁.includeMin) (r₂.min, r₂.includeMin)).2,
   (tightUpper (r₁.max, r₁.includeMax) (r₂.max, r₂.includeMax)).2⟩

end VersionAlgebra

/-! Embedding of `pkm_main/versions/pubgrub.py`.

Python dictionaries are modelled as insertion-ordered association lists,
default-dict reads as lookups defaulting to the empty list.  Mutable
`Incompatability` objects, which are aliased from the per-package
incompatibility index and from `PackageDependency.incompatability` fields and
are mutated in place by `update_dependency`, are modelled by a store (a list
of incompatibilities addressed by position); object identity is store
identity.  `print` calls are ignored.  Partial operations of the Python code
(`[-1]` on an empty list, attribute access on `None`, a failed `assert`,
`next()` on an exhausted generator) are modelled by `Option`/error results. -/

section Pubgrub

variable {V : Type} [LinearOrder V]

/-- Lookup in an association list (Python `dict.get`). -/
def alookup {α : Type} (l : List (String × α)) (k : String) : Option α :=
  (l.find? (fun p => p.1 = k)).map (·.2)

/-- Read of a `defaultdict(list)` entry. -/
def aget {α : Type} (l : List (String × List α)) (k : String) : List α :=
  (alookup l k).getD []

/-- Write a key, keeping the key's original position (Python dict update). -/
def aupdate {α : Type} : List (String × α) → String → α → List (String × α)
  | [], k, v => [(k, v)]
  | (k', v') :: rest, k, v =>
    if k' = k then (k, v) :: rest else (k', v') :: aupdate rest k v

/-- Update a `defaultdict(list)` entry through a function of its current value. -/
def amodify {α : Type} (l : List (String × List α)) (k : String) (f : List α → List α) :
    List (String × List α) :=
  aupdate l k (f (aget l k))

/-- Lexicographic comparison of character lists by character code. -/
def charListLe : List Char → List Char → Bool
  | [], _ => true
  | _ :: _, [] => false
  | a :: as, b :: bs =>
    if a.val < b.val then true
    else if b.val < a.val then false
    else charListLe as bs

/-- Python's string comparison (lexicographic by code point), used as the sort
key on package names. -/
def strLe (a b : String) : Bool :=
  charListLe a.toList b.toList

/-- Insert an element into a list after every prefix element at most as large,
the insertion step of a stable insertion sort. -/
def insertStable {α : Type} (le : α → α → Bool) (a : α) : List α → List α
  | [] => [a]
  | b :: l => if le b a then b :: insertStable le a l else a :: b :: l

/-- Python's stable `sorted`, modelled as a stable insertion sort (for a total
comparison both produce the unique stable sorting). -/
def stableSort {α : Type} (le : α → α → Bool) (l : List α) : List α :=
  l.foldl (fun acc a => insertStable le a acc) []

/-- Modelled from the spec (`pkm/utils/sequences.py` is not in the provided
sources): `argmax` returns the index of the maximal key, the first one on ties. -/
def argmaxIdx {α : Type} (l : List α) (key : α → Nat) : Nat :=
  (l.zip (List.range l.length)).foldl
    (fun best p => if key p.1 > best.2 then (p.2, key p.1) else best) (0, 0)
    |>.1

/-- A package-scoped version constraint with an optionality flag
(`Term` in `pubgrub.py`). -/
structure Term (V : Type) where
  package : String
  constraint : VersionSpecifier V
  optional : Bool := false
deriving DecidableEq

/-- `Term.negate`: flip `optional` and invert the constraint. -/
def Term.negate (t : Term V) : Term V :=
  ⟨t.package, t.constraint.inverse, !t.optional⟩

/-- `Term.satisfies`: `(self.optional and constraint.is_none()) or
constraint.allows_all(self.constraint)`. -/
def Term.satisfies (t : Term V) (constraint : VersionSpecifier V) : Bool :=
  (t.optional && constraint.isNoneSpec) || constraint.allowsAll t.constraint

/-- `Term.join`: fold same-package terms by constraint intersection; the empty
collection yields the full term, a singleton is returned as is. -/
def Term.join (package : String) (terms : List (Term V)) : Term V :=
  match terms with
  | [] => ⟨package, .any, false⟩
  | [t] => t
  | t :: rest =>
    ⟨t.package, rest.foldl (fun c n => c.intersect n.constraint) t.constraint, false⟩

/-- Rendering of a term (`Term.__repr__`). -/
def Term.show [ToString V] (t : Term V) : String :=
  "[" ++ t.package ++ " " ++ t.constraint.show ++ "]"

/-- An assignment in the partial solution.  The `cause` is an incompatibility
id in the store (`none` for decisions). -/
structure Assignment (V : Type) where
  term : Term V
  decisionLevel : Nat
  orderIndex : Nat
  cause : Option Nat
  accumulated : VersionSpecifier V
deriving DecidableEq

/-- `Assignment.is_decision`: an assignment with no cause. -/
def Assignment.isDecision (a : Assignment V) : Bool :=
  a.cause.isNone

/-- The `PartialSolution` state: ordered assignment log, assignments grouped by
package, required packages with the level at which they became required, and
the decisions map. -/
structure PartialSolution (V : Type) where
  rootPackage : String := "root"
  assignmentsByOrder : List (Assignment V) := []
  assignmentsByPackage : List (String × List (Assignment V)) := []
  requiredPackages : List (String × Nat) := []
  decisions : List (String × Assignment V) := []
deriving DecidableEq

/-- `PartialSolution.undecided_packages`: required packages without a decision,
in requirement order. -/
def PartialSolution.undecidedPackages (s : PartialSolution V) : List String :=
  (s.requiredPackages.filter (fun p => (alookup s.decisions p.1).isNone)).map (·.1)

/-- `PartialSolution._decision_level = max(0, len(self._decisions) - 1)`. -/
def PartialSolution.decisionLevel (s : PartialSolution V) : Nat :=
  s.decisions.length - 1

/-- `PartialSolution.requiering_decision`: the decision made at the level at
which the package became required (`none` models the Python runtime errors when
the package is not required or no such decision exists). -/
def PartialSolution.requieringDecision (s : PartialSolution V) (package : String) :
    Option (Assignment V) :=
  (alookup s.requiredPackages package).bind fun dl =>
    (s.decisions.map (·.2)).find? (fun a => a.decisionLevel = dl)

/-- `PartialSolution.backtrack`: truncate the order log, the per-package lists,
the required packages and the decisions to decision level at most the target. -/
def PartialSolution.backtrack (s : PartialSolution V) (decisionLevel : Nat) :
    PartialSolution V :=
  { s with
    assignmentsByOrder := s.assignmentsByOrder.filter (fun a => a.decisionLevel ≤ decisionLevel)
    assignmentsByPackage := s.assignmentsByPackage.map
      (fun pa => (pa.1, pa.2.filter (fun a => a.decisionLevel ≤ decisionLevel)))
    requiredPackages := s.requiredPackages.filter (fun p => p.2 ≤ decisionLevel)
    decisions := s.decisions.filter (fun pd => pd.2.decisionLevel ≤ decisionLevel) }

/-- `PartialSolution.require`: record each new package at the current decision
level. -/
def PartialSolution.require (s : PartialSolution V) (packages : List String) :
    PartialSolution V :=
  packages.foldl
    (fun st package =>
      if (alookup st.requiredPackages package).isSome then st
      else { st with requiredPackages := st.requiredPackages ++ [(package, st.decisionLevel)] })
    s

/-- `PartialSolution.requires`. -/
def PartialSolution.requiresPackage (s : PartialSolution V) (package : String) : Bool :=
  (alookup s.requiredPackages package).isSome

/-- `PartialSolution.make_assignment`: the accumulated constraint intersects the
new constraint with the constraint of the package's previous *term* (this is
what the source computes), the decision level is bumped for non-root decisions. -/
def PartialSolution.makeAssignment (s : PartialSolution V) (assignmentValue : Term V)
    (cause : Option Nat) : Assignment V :=
  let packageAssignments := aget s.assignmentsByPackage assignmentValue.package
  let prevConstraint : VersionSpecifier V :=
    match packageAssignments.getLast? with
    | some a => a.term.constraint
    | none => .any
  let dlevel :=
    if cause.isNone && assignmentValue.package ≠ s.rootPackage then s.decisionLevel + 1
    else s.decisionLevel
  ⟨assignmentValue, dlevel, s.assignmentsByOrder.length, cause,
    prevConstraint.intersect assignmentValue.constraint⟩

/-- `PartialSolution.assign` on an already-built assignment: append it to the
per-package list and to the order log, and record it as a decision when it has
no cause. -/
def PartialSolution.assignA (s : PartialSolution V) (assignment : Assignment V) :
    PartialSolution V :=
  let s' := { s with
    assignmentsByPackage :=
      aupdate s.assignmentsByPackage assignment.term.package
        (aget s.assignmentsByPackage assignment.term.package ++ [assignment])
    assignmentsByOrder := s.assignmentsByOrder ++ [assignment] }
  if assignment.isDecision then
    { s' with decisions := aupdate s'.decisions assignment.term.package assignment }
  else s'

/-- `PartialSolution.assign` on a term: build the assignment first. -/
def PartialSolution.assignT (s : PartialSolution V) (t : Term V) (cause : Option Nat) :
    PartialSolution V :=
  s.assignA (s.makeAssignment t cause)

/-- `PartialSolution.decisions()`: package to version of the deciding
assignment; `none` models the failing cast when a decision is not a specific
version. -/
def PartialSolution.decisionsMap (s : PartialSolution V) : Option (List (String × V)) :=
  s.decisions.mapM fun pd =>
    match pd.2.term.constraint with
    | .specific v => some (pd.1, v)
    | _ => none

/-- An incompatibility: a conjunction of terms carrying either an internal
cause (two parent ids in the store) or an external human-readable cause. -/
structure Incompatability (V : Type) where
  terms : List (Term V)
  interlalCause : Option (Nat × Nat) := none
  externalCause : Option String := none
  added : Bool := false
deriving DecidableEq

/-- `Incompatability.term_for`: the first term of the given package. -/
def Incompatability.termFor (inc : Incompatability V) (package : String) : Option (Term V) :=
  inc.terms.find? (fun t => t.package = package)

/-- `Incompatability.is_empty`. -/
def Incompatability.isEmpty (inc : Incompatability V) : Bool :=
  inc.terms.isEmpty

/-- `Incompatability.create`: group terms by package (first-occurrence order),
join each group, and sort the result by package name. -/
def Incompatability.create (terms : List (Term V)) (internalCause : Option (Nat × Nat))
    (externalCause : Option String) : Incompatability V :=
  let packages := terms.foldl
    (fun acc t => if acc.contains t.package then acc else acc ++ [t.package]) []
  let normalized := packages.map (fun p => Term.join p (terms.filter (fun t => t.package = p)))
  let sortedTerms := stableSort (fun a b => strLe a.package b.package) normalized
  ⟨sortedTerms, internalCause, externalCause, false⟩

/-- `Incompatability.update_dependency`: replace the term of the new depender's
package, refresh the external cause from the other term, and re-sort; `none`
models the failing assertions (not a two-term dependency incompatibility, or no
term of that package). -/
def Incompatability.updateDependency [ToString V] (inc : Incompatability V)
    (newDepender : Term V) : Option (Incompatability V) :=
  match inc.terms with
  | [t₀, t₁] =>
    if t₀.package = newDepender.package then
      some { inc with
        terms := stableSort (fun a b => strLe a.package b.package) [newDepender, t₁]
        externalCause := some (newDepender.show ++ " depends on " ++ t₁.negate.show) }
    else if t₁.package = newDepender.package then
      some { inc with
        terms := stableSort (fun a b => strLe a.package b.package) [t₀, newDepender]
        externalCause := some (newDepender.show ++ " depends on " ++ t₀.negate.show) }
    else none
  | _ => none

/-- Result of scanning one package's assignment log for a satisfier of a term
(the inner loop of `check_satisfaction`). -/
inductive ScanResult (V : Type) where
  | unsat : ScanResult V
  | found (a : Assignment V) : ScanResult V
  | missing : ScanResult V

/-- The inner loop of `check_satisfaction`: the first assignment whose
accumulated constraint is contained in the term's constraint is the satisfier;
an empty accumulated constraint of a non-optional term, or an accumulated
constraint disjoint from the term, abort the whole check. -/
def scanAssignments (term : Term V) : List (Assignment V) → ScanResult V
  | [] => .missing
  | a :: rest =>
    if a.accumulated.isNoneSpec && !term.optional then .unsat
    else if term.constraint.allowsAll a.accumulated then .found a
    else if !(a.accumulated.allowsAny term.constraint) then .unsat
    else scanAssignments term rest

/-- The satisfaction record returned by `check_satisfaction`. -/
structure IncompatabilitySatisfaction (V : Type) where
  satisfier : Option (Assignment V) := none
  prevSatisfier : Option (Assignment V) := none
  undecidedTerm : Option (Term V) := none
deriving DecidableEq

/-- `IncompatabilitySatisfaction.is_full`. -/
def IncompatabilitySatisfaction.isFull (s : IncompatabilitySatisfaction V) : Bool :=
  s.satisfier.isSome

/-- `IncompatabilitySatisfaction.is_almost_full`. -/
def IncompatabilitySatisfaction.isAlmostFull (s : IncompatabilitySatisfaction V) : Bool :=
  s.undecidedTerm.isSome

/-- First phase of `check_satisfaction`: gather one satisfier per term;
`none` encodes the early `return IncompatabilitySatisfaction(self)` (not
satisfied), `some (und, sats)` carries an optional undecided term and the
collected satisfiers. -/
def gatherSatisfiers (sol : PartialSolution V) :
    List (Term V) → Option (Term V) → List (Assignment V) →
    Option (Option (Term V) × List (Assignment V))
  | [], und, sats => some (und, sats)
  | t :: rest, und, sats =>
    match scanAssignments t (aget sol.assignmentsByPackage t.package) with
    | .unsat => none
    | .missing =>
      match und with
      | none => gatherSatisfiers sol rest (some t) sats
      | some _ => none
    | .found a => gatherSatisfiers sol rest und (sats ++ [a])

/-- The scan for an earlier assignment of the satisfier's package that still
implies the satisfier term (`assignment is satisfier` is object identity in
Python; assignments are identified by their content, which is unique in states
produced by the solver thanks to the order index). -/
def priorAssignmentScan (term : Term V) (satisfier : Assignment V) :
    List (Assignment V) → Option (Assignment V)
  | [] => none
  | a :: rest =>
    if a = satisfier then none
    else if term.constraint.allowsAll (a.accumulated.intersect satisfier.term.constraint) then
      some a
    else priorAssignmentScan term satisfier rest

/-- Second phase of `check_satisfaction`: extend the candidate previous
satisfiers with each required package's requiring decision and with earlier
assignments of the satisfier's package.  The outer `Option` models the crash
of `requiering_decision` on a missing decision. -/
def extendSatisfiers (sol : PartialSolution V) (satisfier : Assignment V) :
    List (Term V) → List (Assignment V) → Option (List (Assignment V))
  | [], sats => some sats
  | t :: rest, sats =>
    let step1 : Option (List (Assignment V)) :=
      if sol.requiresPackage t.package then
        (sol.requieringDecision t.package).map (fun d => sats ++ [d])
      else some sats
    match step1 with
    | none => none
    | some sats₁ =>
      let sats₂ :=
        if t.package = satisfier.term.package then
          match priorAssignmentScan t satisfier (aget sol.assignmentsByPackage t.package) with
          | some a => sats₁ ++ [a]
          | none => sats₁
        else sats₁
      extendSatisfiers sol satisfier rest sats₂

/-- `Incompatability.check_satisfaction`; `none` models the runtime crashes
(argmax of no satisfiers, missing requiring decision). -/
def Incompatability.checkSatisfaction (inc : Incompatability V) (sol : PartialSolution V) :
    Option (IncompatabilitySatisfaction V) :=
  match gatherSatisfiers sol inc.terms none [] with
  | none => some {}
  | some (some und, _) => some { undecidedTerm := some und }
  | some (none, satisfiers) =>
    let i := argmaxIdx satisfiers (·.orderIndex)
    match satisfiers[i]? with
    | none => none
    | some satisfier =>
      let rest := satisfiers.take i ++ satisfiers.drop (i + 1)
      match extendSatisfiers sol satisfier inc.terms rest with
      | none => none
      | some final =>
        let prev : Option (Assignment V) :=
          if final.isEmpty then none
          else final[argmaxIdx final (·.orderIndex)]?
        some { satisfier := some satisfier, prevSatisfier := prev }

/-- A dependency of a package version, carrying the id of its dependency
incompatibility once created. -/
structure PackageDependency (V : Type) where
  term : Term V
  incompatability : Option Nat := none
deriving DecidableEq

/-- A known version of a package in the solver's per-package chain.  `next` is
the index of the successor in version order inside the package's version list. -/
structure PackageVersion (V : Type) where
  term : Term V
  generalizedConstraint : Option (VersionSpecifier V) := none
  dependencies : Option (List (String × PackageDependency V)) := none
  next : Option Nat := none
deriving DecidableEq

/-- `PackageVersion.version`; `none` models the failing cast when the term is
not a specific version. -/
def PackageVersion.version? (pv : PackageVersion V) : Option V :=
  match pv.term.constraint with
  | .specific v => some v
  | _ => none

/-- Lower bound (with its inclusivity) of a generalized constraint; `none`
models the missing attribute on shapes other than a range (`AnyVersion` is the
full range). -/
def VersionSpecifier.rangeMin : VersionSpecifier V → Option (Option V)
  | .any => some none
  | .vrange r => some r.min
  | _ => none

/-- Upper bound of a generalized constraint. -/
def VersionSpecifier.rangeMax : VersionSpecifier V → Option (Option V)
  | .any => some none
  | .vrange r => some r.max
  | _ => none

/-- The `while last_requiring.next` walk of `compute_incompatabilities`: follow
the successor chain while the successor's dependencies are materialized and
non-empty and constrain the dependency's package identically.  The chain built
by `package_versions` is acyclic, so fuel `pvs.length` suffices. -/
def walkRun (pvs : List (PackageVersion V)) (depTerm : Term V) :
    Nat → Nat → Nat
  | 0, cur => cur
  | fuel + 1, cur =>
    match (pvs[cur]?).bind (fun pv => pv.next) with
    | none => cur
    | some ni =>
      match pvs[ni]? with
      | none => cur
      | some nxt =>
        match nxt.dependencies with
        | none => cur
        | some nxtDeps =>
          if nxtDeps.isEmpty then cur
          else
            match alookup nxtDeps depTerm.package with
            | none => cur
            | some nxtDep =>
              if nxtDep.term.constraint = depTerm.constraint then
                walkRun pvs depTerm fuel ni
              else cur

/-- One iteration of the dependency loop of
`PackageVersion.compute_incompatabilities`: either extend and reuse the run's
existing dependency incompatibility, or create a fresh one and attach its id to
this version's dependency entry. -/
def computeIncompatsStep [ToString V] (selfIdx depIdx : Nat)
    (acc : List (PackageVersion V) × List (Incompatability V) × List Nat) :
    Option (List (PackageVersion V) × List (Incompatability V) × List Nat) := do
  let (pvs, store, result) := acc
  let selfPv ← pvs[selfIdx]?
  let deps ← selfPv.dependencies
  let entry ← deps[depIdx]?
  let dependency := entry.2
  let fresh : Option (List (PackageVersion V) × List (Incompatability V) × List Nat) := do
    let selfGc ← selfPv.generalizedConstraint
    let nt : Term V := ⟨selfPv.term.package, selfGc, false⟩
    let newInc := Incompatability.create [nt, dependency.term.negate] none
      (some (nt.show ++ " depends on " ++ dependency.term.show))
    let newId := store.length
    let pvs' := pvs.set selfIdx { selfPv with
      dependencies := some (deps.set depIdx
        (entry.1, { dependency with incompatability := some newId })) }
    return (pvs', store ++ [newInc], result ++ [newId])
  let lastIdx := walkRun pvs dependency.term pvs.length selfIdx
  if lastIdx ≠ selfIdx then do
    let lastPv ← pvs[lastIdx]?
    let lastDeps ← lastPv.dependencies
    let lastDep ← alookup lastDeps dependency.term.package
    match lastDep.incompatability with
    | some incId => do
      let inc ← store[incId]?
      let selfGc ← selfPv.generalizedConstraint
      let lastGc ← lastPv.generalizedConstraint
      let mn ← selfGc.rangeMin
      let mx ← lastGc.rangeMax
      let newTerm : Term V := ⟨selfPv.term.package, .vrange ⟨mn, mx, false, false⟩, false⟩
      let inc' ← inc.updateDependency newTerm
      return (pvs, store.set incId inc', result ++ [incId])
    | none => fresh
  else fresh

/-- `PackageVersion.compute_incompatabilities` over the version list of the
package (`selfIdx` is this version's position) and the incompatibility store;
returns the updated list and store together with the resulting ids. -/
def computeIncompatabilities [ToString V] (pvs : List (PackageVersion V)) (selfIdx : Nat)
    (store : List (Incompatability V)) :
    Option (List (PackageVersion V) × List (Incompatability V) × List Nat) := do
  let selfPv ← pvs[selfIdx]?
  let deps ← selfPv.dependencies
  (List.range deps.length).foldlM (fun acc i => computeIncompatsStep selfIdx i acc)
    (pvs, store, [])

/-- The abstract problem the solver runs against (`Problem` in `pubgrub.py`). -/
structure Problem (V : Type) where
  getDependencies : String → V → List (Term V)
  getVersions : String → List V

/-- The solver's mutable state: the partial solution, the per-package version
chains, the incompatibility store (the heap of `Incompatability` objects) and
the per-package incompatibility index. -/
structure SolverState (V : Type) where
  rootPackage : String := "root"
  solution : PartialSolution V
  packageVersions : List (String × List (PackageVersion V)) := []
  incompatStore : List (Incompatability V) := []
  incompatIndex : List (String × List Nat) := []
deriving DecidableEq

/-- `Solver._add_incompatability`: mark the incompatibility as added and append
its id to the index entry of each of its terms' packages, unless an equal
incompatibility (by terms) is already present there. -/
def addIncompatability (st : SolverState V) (incId : Nat) : SolverState V :=
  match st.incompatStore[incId]? with
  | none => st
  | some inc =>
    if inc.added then st
    else
      let store := st.incompatStore.set incId { inc with added := true }
      let index := inc.terms.foldl
        (fun idx term =>
          let existing := aget idx term.package
          if existing.any (fun i =>
              match store[i]? with
              | some e => e.terms = inc.terms
              | none => false) then idx
          else aupdate idx term.package (existing ++ [incId]))
        st.incompatIndex
      { st with incompatStore := store, incompatIndex := index }

/-- Replace the element at an index, when present. -/
def setAt {α : Type} (l : List α) (i : Nat) (f : α → α) : List α :=
  match l[i]? with
  | none => l
  | some a => l.set i (f a)

/-- The `for i in range(len(versions) - 1)` loop of `Solver.package_versions`:
link each sorted position to its successor. -/
def assignNexts (sortedIdx : List Nat) (n : Nat) (l : List (PackageVersion V)) :
    List (PackageVersion V) :=
  (List.range (n - 1)).foldl
    (fun l i =>
      match sortedIdx[i]?, sortedIdx[i + 1]? with
      | some si, some ni => setAt l si (fun pv => { pv with next := some ni })
      | _, _ => l)
    l

/-- The generalized-constraint assignments of `Solver.package_versions`:
`AnyVersion` for a single known version; otherwise neighbour-bounded ranges for
the middle positions, an unbounded-below range for the first position and a
range starting inclusively at the last version itself for the last position. -/
def assignGeneralized (sortedIdx : List Nat) (sortedVals : List V) (n : Nat)
    (withNext : List (PackageVersion V)) : List (PackageVersion V) :=
  if n = 1 then
    match sortedIdx[0]? with
    | some si => setAt withNext si
        (fun pv => { pv with generalizedConstraint := some .any })
    | none => withNext
  else if 1 ≤ n then
    let mid := (List.range' 1 (n - 2)).foldl
      (fun l i =>
        match sortedIdx[i]?, sortedVals[i - 1]?, sortedVals[i + 1]? with
        | some si, some lo, some hi => setAt l si (fun pv =>
            { pv with
                generalizedConstraint := some (.vrange ⟨some lo, some hi, false, false⟩) })
        | _, _, _ => l)
      withNext
    let withFirst :=
      match sortedIdx[0]?, sortedVals[1]? with
      | some si, some hi => setAt mid si (fun pv =>
          { pv with
              generalizedConstraint := some (.vrange ⟨none, some hi, false, false⟩) })
      | _, _ => mid
    match sortedIdx[n - 1]?, sortedVals[n - 1]? with
    | some si, some lo => setAt withFirst si (fun pv =>
        { pv with
            generalizedConstraint := some (.vrange ⟨some lo, none, true, false⟩) })
    | _, _ => withFirst
  else withNext

/-- `Solver.package_versions`: materialize (and cache) the package's version
chain: one `PackageVersion` per known version in the original order, successor
pointers following ascending version order, and the generalized constraints
spanning neighbouring versions (`AnyVersion` for a single known version). -/
def materializeVersions (problem : Problem V) (st : SolverState V) (package : String) :
    SolverState V × List (PackageVersion V) :=
  let cached := aget st.packageVersions package
  if !cached.isEmpty then (st, cached)
  else
    let vs := problem.getVersions package
    let n := vs.length
    let pvs0 : List (PackageVersion V) :=
      vs.map (fun v => { term := ⟨package, .specific v, false⟩ })
    let sortedPairs := stableSort (fun a b => decide (a.1 ≤ b.1)) (vs.zip (List.range n))
    let sortedIdx := sortedPairs.map (·.2)
    let sortedVals := sortedPairs.map (·.1)
    let withGc := assignGeneralized sortedIdx sortedVals n (assignNexts sortedIdx n pvs0)
    ({ st with packageVersions := aupdate st.packageVersions package withGc }, withGc)

/-- Python `min(..., key=...)`: the first element with minimal key. -/
def firstMinBy (l : List String) (key : String → Nat) : Option String :=
  match l with
  | [] => none
  | x :: xs => some (xs.foldl (fun best p => if key p < key best then p else best) x)

/-- The candidate-matching loop of `Solver._make_next_decision`: for each
undecided package, materialize its version chain and keep the indices of the
versions allowed by the package's current accumulated constraint. -/
def decisionMatchingStep (problem : Problem V)
    (acc : SolverState V × List (String × List Nat)) (package : String) :
    Option (SolverState V × List (String × List Nat)) :=
  ((aget acc.1.solution.assignmentsByPackage package).getLast?).bind fun lastA =>
    ((List.range (materializeVersions problem acc.1 package).2.length).filterM
        (fun i => ((materializeVersions problem acc.1 package).2[i]?).bind fun pv =>
          (pv.version?).bind fun v => some (lastA.accumulated.allowsVersion v))).map
      fun idxs => ((materializeVersions problem acc.1 package).1, acc.2 ++ [(package, idxs)])

/-- The whole candidate-matching loop of `Solver._make_next_decision`. -/
def decisionMatching (problem : Problem V) (st : SolverState V) (undecided : List String) :
    Option (SolverState V × List (String × List Nat)) :=
  undecided.foldlM (decisionMatchingStep problem) (st, ([] : List (String × List Nat)))

/-- `Solver._make_next_decision`.  The result is `some (none, st)` when no
undecided required package remains, `some (some p, st)` when the step finished
for package `p` (decision committed, conflict anticipated, or the
no-matching-versions incompatibility registered); the outer `none` models the
Python runtime crashes (`[-1]` on a package with no assignments). -/
def makeNextDecision [ToString V] (problem : Problem V) (st : SolverState V) :
    Option (Option String × SolverState V) :=
  let undecided := st.solution.undecidedPackages
  if undecided.isEmpty then some (none, st)
  else do
    let (st, matching) ← decisionMatching problem st undecided
    let package ← firstMinBy undecided (fun p => ((alookup matching p).getD []).length)
    match (alookup matching package).getD [] with
    | [] => do
      let lastA ← (aget st.solution.assignmentsByPackage package).getLast?
      let accConstraint := lastA.accumulated
      let newInc := Incompatability.create [⟨package, accConstraint, false⟩] none
        (some ("No Versions matching " ++ accConstraint.show))
      let newId := st.incompatStore.length
      let st := addIncompatability
        { st with incompatStore := st.incompatStore ++ [newInc] } newId
      return (some package, st)
    | vIdx :: _ => do
      let pvsList := aget st.packageVersions package
      let pv ← pvsList[vIdx]?
      let v ← pv.version?
      let needCompute :=
        match pv.dependencies with
        | none => true
        | some l => l.isEmpty
      let (pvsList, pv) :=
        if needCompute then
          let deps := (problem.getDependencies package v).foldl
            (fun acc d => aupdate acc d.package ({ term := d } : PackageDependency V)) []
          let pv' := { pv with dependencies := some deps }
          (pvsList.set vIdx pv', pv')
        else (pvsList, pv)
      let st := { st with packageVersions := aupdate st.packageVersions package pvsList }
      let (pvsList, store, incIds) ← computeIncompatabilities pvsList vIdx st.incompatStore
      let st := { st with
        packageVersions := aupdate st.packageVersions package pvsList
        incompatStore := store }
      let st := incIds.foldl addIncompatability st
      let assignment := st.solution.makeAssignment ⟨package, .specific v, false⟩ none
      let tempSol := { st.solution with
        assignmentsByPackage := aupdate st.solution.assignmentsByPackage package
          (aget st.solution.assignmentsByPackage package ++ [assignment]) }
      let conflict ← incIds.foldlM
        (fun c incId => do
          if c then return true
          else do
            let inc ← st.incompatStore[incId]?
            let sat ← inc.checkSatisfaction tempSol
            return sat.isFull)
        false
      if conflict then return (some package, st)
      else do
        let st := { st with solution :=
          (st.solution.assignA assignment).require ((pv.dependencies.getD []).map (·.1)) }
        return (some package, st)

/-- Errors of the embedded solver run: the `UnsolvableProblemException`, a
modelled Python runtime crash (failed assertion, attribute/index error), or
fuel exhaustion of the embedding. -/
inductive SolveErr (V : Type) where
  | unsolvable (inc : Incompatability V)
  | crash
  | outOfFuel
deriving DecidableEq

/-- Lift a modelled Python crash into the solver's error monad. -/
def liftO {V α : Type} : Option α → Except (SolveErr V) α
  | none => .error .crash
  | some a => .ok a

/-- `Solver._is_tautology`: no terms, or exactly the root package's term. -/
def isTautology (root : String) (inc : Incompatability V) : Bool :=
  match inc.terms with
  | [] => true
  | [t] => t.package = root
  | _ => false

/-- `Solver._resolve_conflict`: derive prior causes until the satisfier is a
decision or the previous satisfier is at a lower level, then backtrack, add the
learned incompatibility (when it is not the original) and return its id. -/
def resolveConflict [ToString V] :
    Nat → SolverState V → Nat → IncompatabilitySatisfaction V → Nat →
    Except (SolveErr V) (Nat × SolverState V)
  | 0, _, _, _, _ => .error .outOfFuel
  | fuel + 1, st, incId, sat, originalId => do
    let inc ← liftO st.incompatStore[incId]?
    if isTautology st.rootPackage inc then .error (.unsolvable inc)
    else do
      let satisfier ← liftO sat.satisfier
      let prevLevel := (sat.prevSatisfier.map (·.decisionLevel)).getD 0
      if satisfier.isDecision || prevLevel < satisfier.decisionLevel then do
        let st := { st with solution := st.solution.backtrack prevLevel }
        let st := if incId ≠ originalId then addIncompatability st incId else st
        return (incId, st)
      else do
        let term ← liftO (inc.termFor satisfier.term.package)
        let cause ← liftO satisfier.cause
        let causeInc ← liftO st.incompatStore[cause]?
        let priorCauseTerms := (inc.terms ++ causeInc.terms).filter
          (fun t => t.package ≠ satisfier.term.package)
        let priorCauseTerms :=
          if !(satisfier.term.satisfies term.constraint) || priorCauseTerms.isEmpty then
            priorCauseTerms ++ [⟨satisfier.term.package,
              (satisfier.term.constraint.difference term.constraint).inverse,
              satisfier.term.optional && term.optional⟩]
          else priorCauseTerms
        let newInc := Incompatability.create priorCauseTerms (some (cause, incId)) none
        let newId := st.incompatStore.length
        let st := { st with incompatStore := st.incompatStore ++ [newInc] }
        let sat ←
          if isTautology st.rootPackage newInc then pure sat
          else liftO (newInc.checkSatisfaction st.solution)
        resolveConflict fuel st newId sat originalId

/-- The inner `for incompatability in reversed(...)` loop of
`Solver._propagate`: the id list is the (already reversed) snapshot of the
package's index entry. -/
def propagateInner [ToString V] :
    Nat → SolverState V → List Nat → List String →
    Except (SolveErr V) (SolverState V × List String)
  | _, st, [], changed => .ok (st, changed)
  | 0, _, _ :: _, _ => .error .outOfFuel
  | fuel + 1, st, incId :: rest, changed => do
    let inc ← liftO st.incompatStore[incId]?
    let sat ← liftO (inc.checkSatisfaction st.solution)
    if sat.isFull then do
      let (newId, st) ← resolveConflict fuel st incId sat incId
      let newInc ← liftO st.incompatStore[newId]?
      let newSat ← liftO (newInc.checkSatisfaction st.solution)
      if !newSat.isAlmostFull then .error .crash
      else do
        let term ← liftO newSat.undecidedTerm
        let st := { st with solution := st.solution.assignT term.negate (some newId) }
        propagateInner fuel st rest [term.package]
    else if sat.isAlmostFull then do
      let term ← liftO sat.undecidedTerm
      let st := { st with solution := st.solution.assignT term.negate (some incId) }
      let changed := if changed.contains term.package then changed else changed ++ [term.package]
      propagateInner fuel st rest changed
    else propagateInner fuel st rest changed

/-- `Solver._propagate`: worklist loop over changed packages (the Python set's
iteration order is modelled as insertion order). -/
def propagate [ToString V] :
    Nat → SolverState V → List String → Except (SolveErr V) (SolverState V)
  | _, st, [] => .ok st
  | 0, _, _ :: _ => .error .outOfFuel
  | fuel + 1, st, package :: changedRest => do
    let snapshot := (aget st.incompatIndex package).reverse
    let (st, changed) ← propagateInner fuel st snapshot changedRest
    propagate fuel st changed

/-- The `while next_package is not None` loop of `Solver.solve`. -/
def solveLoop [ToString V] (problem : Problem V) :
    Nat → SolverState V → Option String → Except (SolveErr V) (SolverState V)
  | _, st, none => .ok st
  | 0, _, some _ => .error .outOfFuel
  | fuel + 1, st, some package => do
    let st ← propagate fuel st [package]
    match makeNextDecision problem st with
    | none => .error .crash
    | some (nextPackage, st) => solveLoop problem fuel st nextPackage

/-- `Solver.solve`: register the root incompatibility, require the root package
and run the propagate/decide loop; on success return the decisions map. -/
def Solver.solve [ToString V] (fuel : Nat) (problem : Problem V)
    (rootPackage : String := "root") : Except (SolveErr V) (List (String × V)) := do
  let st0 : SolverState V :=
    { rootPackage := rootPackage, solution := { rootPackage := rootPackage } }
  let (st, rootVersions) := materializeVersions problem st0 rootPackage
  let rootPv ← liftO rootVersions[0]?
  let rootTerm := rootPv.term
  let rootInc := Incompatability.create [rootTerm.negate] none (some "Root Project")
  let rootIncId := st.incompatStore.length
  let st := addIncompatability { st with incompatStore := st.incompatStore ++ [rootInc] } rootIncId
  let st := { st with solution := st.solution.require [rootTerm.package] }
  let st ← solveLoop problem fuel st (some rootTerm.package)
  liftO st.solution.decisionsMap

end Pubgrub

/-! Embedding of `_CompositeRepository._do_match` from
`pkm/api/repositories/repository_loader.py`.  Repositories are modelled by
their `match` function (the boolean second argument of `Repository.match`
controls sorting and compatibility filtering outside this routine), packages by
an abstract type.  A URL whose protocol is the empty string models a Python
falsy protocol. -/

section CompositeRepository

variable {α : Type}

/-- A parsed URL as the composite repository sees it. -/
structure PUrl where
  protocol : String
deriving DecidableEq

/-- The slice of a dependency the composite repository consults:
its package name and the URL its specifier denotes, when any
(`dependency.version_spec.specific_url()`). -/
structure Dependency where
  packageName : String
  specificUrl : Option PUrl
deriving DecidableEq

/-- The first repository in the search list with a non-empty match; the empty
list when every entry is empty (the `for repo in self._package_search_list`
loop). -/
def firstNonEmpty (repos : List (Dependency → List α)) (dependency : Dependency) : List α :=
  match repos with
  | [] => []
  | r :: rest =>
    match r dependency with
    | [] => firstNonEmpty rest dependency
    | result => result

/-- The composite repository's routing state. -/
structure CompositeRepository (α : Type) where
  urlHandlers : List (String × (Dependency → List α))
  packageSearchList : List (Dependency → List α)
  packageAssociatedRepos : List (String × (Dependency → List α))

/-- `_CompositeRepository._do_match`: URL dependencies are routed by protocol
(missing handler raises a no-handler error; a URL without a protocol goes to
the handler registered under the name `url`, a missing one being a key error),
pinned packages delegate exclusively, everything else takes the first non-empty
result of the search list. -/
def CompositeRepository.doMatch (self : CompositeRepository α) (dependency : Dependency) :
    Except String (List α) :=
  match dependency.specificUrl with
  | some url =>
    if url.protocol ≠ "" then
      match alookup self.urlHandlers url.protocol with
      | some repo => .ok (repo dependency)
      | none =>
        .error ("could not find repository to handle url with protocol: " ++ url.protocol)
    else
      match alookup self.urlHandlers "url" with
      | some repo => .ok (repo dependency)
      | none => .error "KeyError: url"
  | none =>
    match alookup self.packageAssociatedRepos dependency.packageName with
    | some repo => .ok (repo dependency)
    | none => .ok (firstNonEmpty self.packageSearchList dependency)

end CompositeRepository

/-! Embedding of `pkm/project_builders/external_builders.py`.  A hook
invocation (`_exec_build_cycle_script`) is modelled by an oracle from the hook
name to the `_BuildCycleResult` record it wrote (a non-zero subprocess exit
raising `BuildError` before any record exists is outside these claims);
environment provisioning and requirement installation mutate only external
state and are recorded as an install log. -/

section ExternalBuilders

/-- The `status` field of `_BuildCycleResult`. -/
inductive HookStatus where
  | success
  | undefinedHook
deriving DecidableEq

/-- The dynamically typed `result` payload of `_BuildCycleResult`. -/
inductive BuildResultVal where
  | vnone
  | vstr (s : String)
  | vlist (l : List String)
deriving DecidableEq

/-- The record a hook writes (`_BuildCycleResult`). -/
structure BuildCycleResult where
  status : HookStatus
  result : BuildResultVal
deriving DecidableEq

/-- Errors a build can raise: `BuildError`, or a modelled Python runtime type
error (for instance joining a path with a non-string hook result). -/
inductive BuildErr where
  | buildError (msg : String)
  | typeError
deriving DecidableEq

/-- Outcome of a build call: the log of extra requirement payloads installed
into the build environment, and the returned artifact path or the raised
error. -/
structure BuildOutcome where
  installedExtras : List BuildResultVal
  result : Except BuildErr String
deriving DecidableEq

/-- `target_dir / result` (a type error unless the hook result is a string). -/
def pathJoin (dir : String) : BuildResultVal → Option String
  | .vstr s => some (dir ++ "/" ++ s)
  | _ => none

/-- `build_wheel` of `external_builders.py`: run the
`get_requires_for_build_{editable|wheel}` hook and install its result when it
succeeded, then either `prepare_metadata_for_build_wheel` (when `only_meta`,
a non-success status raising `BuildError`) or `build_{editable|wheel}` (a
non-success status raising `BuildError`). -/
def build_wheel (execHook : String → BuildCycleResult) (projectDistDir : String)
    (targetDir : Option String) (onlyMeta editable : Bool) : BuildOutcome :=
  let targetDir := targetDir.getD projectDistDir
  let command :=
    if editable then "get_requires_for_build_editable" else "get_requires_for_build_wheel"
  let extraRequirements := execHook command
  let installed? : Option (List BuildResultVal) :=
    if extraRequirements.status = .success then
      match extraRequirements.result with
      | .vlist l => some [.vlist l]
      | _ => none
    else some []
  match installed? with
  | none => ⟨[], .error .typeError⟩
  | some installed =>
    if onlyMeta then
      let distInfoOutput := execHook "prepare_metadata_for_build_wheel"
      if distInfoOutput.status = .success then
        match pathJoin targetDir distInfoOutput.result with
        | some p => ⟨installed, .ok p⟩
        | none => ⟨installed, .error .typeError⟩
      else ⟨installed, .error (.buildError "build backend did not produced wheel metadata")⟩
    else
      let command := if editable then "build_editable" else "build_wheel"
      let wheelOutput := execHook command
      if wheelOutput.status = .success then
        match pathJoin targetDir wheelOutput.result with
        | some p => ⟨installed, .ok p⟩
        | none => ⟨installed, .error .typeError⟩
      else ⟨installed, .error (.buildError "build backend did not produced expected wheel")⟩

/-- `build_sdist` of `external_builders.py`: run `get_requires_for_build_sdist`
(installing a non-empty successful result), then `build_sdist`, a non-success
status raising `BuildError`. -/
def build_sdist (execHook : String → BuildCycleResult) (projectDistDir : String)
    (targetDir : Option String) : BuildOutcome :=
  let targetDir := targetDir.getD projectDistDir
  let extraRequirements := execHook "get_requires_for_build_sdist"
  let installed? : Option (List BuildResultVal) :=
    if extraRequirements.status = .success then
      match extraRequirements.result with
      | .vlist [] => some []
      | .vlist l => some [.vlist l]
      | _ => none
    else some []
  match installed? with
  | none => ⟨[], .error .typeError⟩
  | some installed =>
    let sdistOutput := execHook "build_sdist"
    if sdistOutput.status = .success then
      match pathJoin targetDir sdistOutput.result with
      | some p => ⟨installed, .ok p⟩
      | none => ⟨installed, .error .typeError⟩
    else ⟨installed, .error (.buildError "build backend did not produced expected sdist")⟩

/-- The per-thread ongoing-builds table `_ongoing_builds` (thread ident to the
set of package descriptors being built; a missing key reads as the empty set,
so deleting an emptied entry is the identity on this view). -/
abbrev BuildsMap := Nat → Finset (String × String)

/-- Entering `_cycle_detection`: raise `BuildError` with the thread's ongoing
set when the descriptor is already in it, otherwise add the descriptor. -/
def cycleEnter (tid : Nat) (desc : String × String) (m : BuildsMap) :
    Except (Finset (String × String)) BuildsMap :=
  if desc ∈ m tid then .error (m tid)
  else .ok (Function.update m tid (insert desc (m tid)))

/-- Leaving `_cycle_detection` (the `finally` block): remove the descriptor
from the thread's ongoing set. -/
def cycleExit (tid : Nat) (desc : String × String) (m : BuildsMap) : BuildsMap :=
  Function.update m tid ((m tid).erase desc)

/-- The `_cycle_detection` context manager around a body that may itself touch
the table: enter, run the body, and remove the descriptor again whether the
body returned or raised. -/
def cycleDetection {ε α : Type} (tid : Nat) (desc : String × String) (m : BuildsMap)
    (body : BuildsMap → Except ε α × BuildsMap) :
    Except (Finset (String × String) ⊕ ε) α × BuildsMap :=
  match cycleEnter tid desc m with
  | .error s => (.error (.inl s), m)
  | .ok m₁ =>
    let (r, m₂) := body m₁
    (r.mapError .inr, cycleExit tid desc m₂)

end ExternalBuilders

/-! Embedding of the interpreter-discovery filter of
`pkm/api/repositories/local_pythons_repository.py`:
`_PYTHON_EXEC_RX = re.compile(r"python-?[0-9.]*(.exe)?")` used as
`_PYTHON_EXEC_RX.fullmatch(file.name.lower()) and is_executable(file)`.
Regular-expression languages are embedded as decidable membership via a finite
search over splits of the character list. -/

section InterpreterDiscovery

/-- Characters of the class `[0-9.]`. -/
def isPyDigitOrDot (c : Char) : Bool :=
  c.isDigit || c = '.'

/-- Every split of a character list into a prefixed part and the rest. -/
def splitsOf (l : List Char) : List (List Char × List Char) :=
  (List.range (l.length + 1)).map fun i => (l.take i, l.drop i)

/-- Full-match language of the code's regex `python-?[0-9.]*(.exe)?` — note the
unescaped dot, matching any single character before `exe`. -/
def pythonExecRxAccepts (l : List Char) : Bool :=
  l.take 6 = "python".toList &&
  (splitsOf (l.drop 6)).any fun dRest =>
    (dRest.1 = [] || dRest.1 = ['-']) &&
    (splitsOf dRest.2).any fun st =>
      st.1.all isPyDigitOrDot &&
      (st.2 = [] || (st.2.length = 4 && st.2.drop 1 = ['e', 'x', 'e']))

/-- Full-match language of the regex the specification states,
`python(-?[0-9.]*)?(\.exe)?` — the dot escaped, so only the literal suffix
`.exe` is allowed. -/
def specPythonRxAccepts (l : List Char) : Bool :=
  l.take 6 = "python".toList &&
  (splitsOf (l.drop 6)).any fun st =>
    (match st.1 with
     | '-' :: rest => rest.all isPyDigitOrDot
     | ds => ds.all isPyDigitOrDot) &&
    (st.2 = [] || st.2 = ['.', 'e', 'x', 'e'])

/-- The acceptance test of `_interpreters_in_path` on one directory entry:
the case-folded file name (`file.name.lower()`, character-wise lowering) fully
matches `_PYTHON_EXEC_RX` and the file is executable. -/
def acceptsInterpreterFile (name : String) (isExecutable : Bool) : Bool :=
  pythonExecRxAccepts (name.toList.map Char.toLower) && isExecutable

end InterpreterDiscovery

/-! Embedding of `udict_hash` from `pkm/utils/dicts.py`.  The mapping is
modelled by its entry list; the hash codomain is modelled as the natural
numbers (Python's arbitrary-precision integers restricted to the non-negative
ones, `^` being bitwise xor). -/

section UDictHash

/-- `udict_hash(d, key_hash, value_hash)`: xor over the entries of
`(7 * 31 + key_hash(k)) * 31 + value_hash(v)`, starting from 0. -/
def udict_hash {K W : Type} (d : List (K × W)) (keyHash : K → Nat) (valueHash : W → Nat) :
    Nat :=
  d.foldl (fun result kv => result ^^^ ((7 * 31 + keyHash kv.1) * 31 + valueHash kv.2)) 0

end UDictHash

/-! Claim-level predicates and the concrete instances evaluated by the
theorems below. -/

section ClaimSupport

variable {V : Type} [LinearOrder V]

/-- The soundness property claim C1 states of `Solver.solve`: for every
package `p` decided at `v` and every dependency term `d` the problem declares
for `(p, v)`, the decision map contains `d`'s package at a version allowed by
`d`'s constraint. -/
def solutionSatisfiesDependencies (problem : Problem V) (m : List (String × V)) : Prop :=
  ∀ pv ∈ m, ∀ d ∈ problem.getDependencies pv.1 pv.2,
    ∃ entry ∈ m, entry.1 = d.package ∧ d.constraint.allowsVersion entry.2 = true

/-- The specification's end-to-end scenario 3: the root depends on `A >= 2`
and on `A < 2` (two dependency terms on the same package); `A` has known
versions 1 and 3. -/
def scenario3Problem : Problem Nat where
  getVersions := fun p => if p = "root" then [0] else if p = "A" then [1, 3] else []
  getDependencies := fun p _ =>
    if p = "root" then
      [⟨"A", .vrange ⟨some 2, none, true, false⟩, false⟩,
       ⟨"A", .vrange ⟨none, some 2, false, false⟩, false⟩]
    else []

/-- The behaviour claim C2 states for `Term.satisfies`: true exactly when the
argument allows every version of the term's constraint, except that an
optional term with an empty constraint is satisfied by any argument. -/
def claimSatisfiesPredicate (t : Term V) (c : VersionSpecifier V) : Prop :=
  (∀ v, t.constraint.allowsVersion v = true → c.allowsVersion v = true) ∨
  (t.optional = true ∧ t.constraint.isNoneSpec = true)

/-- `Solver.package_versions` for a package `"p"` whose problem lists the given
known versions, run on a fresh solver. -/
def packageVersionsOf (vs : List V) : List (PackageVersion V) :=
  (materializeVersions ⟨fun _ _ => [], fun _ => vs⟩ { solution := {} } "p").2

/-- The generalized constraint claim C3 predicts at position `i` of the
ascending version chain: from the previous known version (exclusive) to the
next known version (exclusive), the bound absent at either end of the chain,
`AnyVersion` when the chain has a single version. -/
def claimGeneralized (vs : List V) (i : Nat) : Option (VersionSpecifier V) :=
  if vs.length ≤ i then none
  else if vs.length = 1 then some .any
  else if i = 0 then (vs[1]?).map (fun hi => .vrange ⟨none, some hi, false, false⟩)
  else if i = vs.length - 1 then
    (vs[i - 1]?).map (fun lo => .vrange ⟨some lo, none, false, false⟩)
  else
    match vs[i - 1]?, vs[i + 1]? with
    | some lo, some hi => some (.vrange ⟨some lo, some hi, false, false⟩)
    | _, _ => none

/-- The generalized constraint the code actually assigns at position `i`: as
claim C3 predicts except at the last position of a chain of two or more
versions, where the range starts at that last version itself, inclusively. -/
def codeGeneralized (vs : List V) (i : Nat) : Option (VersionSpecifier V) :=
  if vs.length ≤ i then none
  else if vs.length = 1 then some .any
  else if i = 0 then (vs[1]?).map (fun hi => .vrange ⟨none, some hi, false, false⟩)
  else if i = vs.length - 1 then (vs[i]?).map (fun lo => .vrange ⟨some lo, none, true, false⟩)
  else
    match vs[i - 1]?, vs[i + 1]? with
    | some lo, some hi => some (.vrange ⟨some lo, some hi, false, false⟩)
    | _, _ => none

/-- The state `Solver._make_next_decision` produces on its no-matching-versions
branch: the single-term incompatibility `[Term(p, acc)]` with external cause
`"No Versions matching " ++ acc` appended to the store and passed through
`_add_incompatability`. -/
def noVersionsRegistered [ToString V] (st₁ : SolverState V) (p : String)
    (acc : VersionSpecifier V) : SolverState V :=
  addIncompatability
    { st₁ with incompatStore := st₁.incompatStore ++
        [Incompatability.create [⟨p, acc, false⟩] none
          (some ("No Versions matching " ++ acc.show))] }
    st₁.incompatStore.length

/-- A solver state whose only required package `"p"` carries one assignment
and no decision; the problem below gives `"p"` no versions at all. -/
def noVersionsState : SolverState Nat :=
  { rootPackage := "root"
    solution :=
      { rootPackage := "root"
        assignmentsByOrder := [⟨⟨"p", .specific 1, false⟩, 0, 0, some 0, .specific 1⟩]
        assignmentsByPackage := [("p", [⟨⟨"p", .specific 1, false⟩, 0, 0, some 0, .specific 1⟩])]
        requiredPackages := [("p", 0)]
        decisions := [] }
    packageVersions := []
    incompatStore := [⟨[⟨"p", .specific 1, false⟩], none, some "seed", true⟩]
    incompatIndex := [] }

/-- The state above after the candidate-matching loop has cached the (empty)
materialized version chain for `"p"`. -/
def noVersionsStateMat : SolverState Nat :=
  { noVersionsState with packageVersions := [("p", [])] }

/-- A problem with no versions for any package. -/
def emptyProblem : Problem Nat where
  getVersions := fun _ => []
  getDependencies := fun _ _ => []

/-- A hook oracle whose `prepare_metadata_for_build_wheel` hook reports
`undefined_hook` while the other hooks succeed. -/
def prepUndefinedHooks : String → BuildCycleResult := fun hook =>
  if hook = "prepare_metadata_for_build_wheel" then ⟨.undefinedHook, .vnone⟩
  else if hook = "get_requires_for_build_wheel" then ⟨.success, .vlist []⟩
  else ⟨.success, .vstr "out"⟩

/-- A hook oracle whose optional hooks are all undefined and whose build hooks
succeed with an artifact name. -/
def optionalUndefinedHooks : String → BuildCycleResult := fun hook =>
  if hook = "build_wheel" then ⟨.success, .vstr "pkg.whl"⟩
  else if hook = "build_editable" then ⟨.success, .vstr "pkg-editable.whl"⟩
  else if hook = "build_sdist" then ⟨.success, .vstr "pkg.tar.gz"⟩
  else ⟨.undefinedHook, .vnone⟩

/-- A hook oracle on which every hook reports `undefined_hook`. -/
def allUndefinedHooks : String → BuildCycleResult := fun _ =>
  ⟨.undefinedHook, .vnone⟩

/-- A repository answering one candidate, for the composite-repository
witnesses. -/
def unitRepo : Dependency → List Nat := fun _ => [1]

/-- A repository answering no candidates. -/
def emptyRepo : Dependency → List Nat := fun _ => []

/-- A concrete composite repository: one url handler for `git`, a search list
whose first entry is empty, and one pinned package. -/
def witnessComposite : CompositeRepository Nat :=
  { urlHandlers := [("git", unitRepo)]
    packageSearchList := [emptyRepo, unitRepo]
    packageAssociatedRepos := [("pinned", unitRepo)] }

/-- An empty per-thread builds table. -/
def emptyBuilds : BuildsMap := fun _ => ∅

/-- A body for the cycle-detection witnesses: returns 7, leaves the table
alone. -/
def idBody : BuildsMap → Except Unit Nat × BuildsMap := fun m => (.ok 7, m)

/-- A concrete partial solution exercising the backtracking claim: assignments
at decision levels 0, 1 and 2 for two packages, requirements and decisions at
matching levels. -/
def witnessSolution : PartialSolution Nat :=
  let a0 : Assignment Nat := ⟨⟨"root", .specific 0, false⟩, 0, 0, some 0, .specific 0⟩
  let a1 : Assignment Nat := ⟨⟨"a", .specific 1, false⟩, 1, 1, none, .specific 1⟩
  let a2 : Assignment Nat := ⟨⟨"b", .specific 2, false⟩, 2, 2, none, .specific 2⟩
  { rootPackage := "root"
    assignmentsByOrder := [a0, a1, a2]
    assignmentsByPackage := [("root", [a0]), ("a", [a1]), ("b", [a2])]
    requiredPackages := [("root", 0), ("a", 0), ("b", 1)]
    decisions := [("a", a1), ("b", a2)] }

end ClaimSupport

/-! Theorems. -/

/-- Helper: xor of naturals is right-commutative as a fold step. -/
theorem natXorRightComm (b x y : Nat) : (b ^^^ x) ^^^ y = (b ^^^ y) ^^^ x := by
  rw [Nat.xor_assoc b x y, Nat.xor_assoc b y x, Nat.xor_comm x y]

/-- C10: for every finite mapping and every reordering of its entries,
`udict_hash` computed with the same key-hash and value-hash functions returns
the same value — the result depends only on the collection of key-value pairs,
not on their insertion order. -/
theorem C10_udict_hash_order_independent {K W : Type}
    (keyHash : K → Nat) (valueHash : W → Nat) (d₁ d₂ : List (K × W))
    (h : d₁.Perm d₂) :
    udict_hash d₁ keyHash valueHash = udict_hash d₂ keyHash valueHash := by
  unfold udict_hash
  haveI : RightCommutative (fun (result : Nat) (kv : K × W) =>
      result ^^^ ((7 * 31 + keyHash kv.1) * 31 + valueHash kv.2)) :=
    ⟨fun b a c => natXorRightComm b _ _⟩
  exact h.foldl_eq 0

/-- Witness for C10 at a concrete two-entry mapping and its reversal. -/
theorem C10_udict_hash_order_independent_witness :
    ([((0 : Nat), (1 : Nat)), (5, 2)]).Perm [(5, 2), (0, 1)] ∧
    udict_hash [((0 : Nat), (1 : Nat)), (5, 2)] id id =
      udict_hash [(5, 2), (0, 1)] id id := by
  refine ⟨?_, C10_udict_hash_order_independent id id _ _ ?_⟩ <;>
    exact List.Perm.swap (5, 2) (0, 1) []

/-- C9: interpreter discovery accepts a file exactly when it is executable and
its case-folded name fully matches the code's regex — but the code's regex
`python-?[0-9.]*(.exe)?` leaves the dot before `exe` unescaped, so the name
`pythonxexe` is accepted although the claimed regex `python(-?[0-9.]*)?(\.exe)?`
rejects it; on ordinary interpreter names the two agree, and a non-executable
match is still rejected. -/
theorem C9_regex_unescaped_dot_divergence :
    acceptsInterpreterFile "pythonxexe" true = true ∧
    specPythonRxAccepts "pythonxexe".toList = false ∧
    acceptsInterpreterFile "python" true = true ∧
    acceptsInterpreterFile "python3.9" true = true ∧
    acceptsInterpreterFile "python-3.10" true = true ∧
    acceptsInterpreterFile "Python.exe" true = true ∧
    specPythonRxAccepts "python.exe".toList = true ∧
    acceptsInterpreterFile "python3.9" false = false ∧
    acceptsInterpreterFile "pip" true = false := by
  decide

/-- C8: the build cycle guard keeps a per-thread set of currently-building
descriptors: entering adds the project's descriptor to the current thread's
set, exiting (whether the body returned or raised) removes it again,
re-entering a descriptor already present in the current thread's set raises
the build error carrying that offending set (shown both directly and for a
nested build), and a fresh descriptor never triggers the error — the entry
test consults only the current thread's set, whatever other threads hold. -/
theorem C8_cycle_detection_guard {ε α : Type} (tid : Nat) (desc : String × String)
    (m : BuildsMap) (body : BuildsMap → Except ε α × BuildsMap)
    (hnew : desc ∉ m tid) :
    cycleEnter tid desc m = .ok (Function.update m tid (insert desc (m tid))) ∧
    Function.update m tid (insert desc (m tid)) tid = insert desc (m tid) ∧
    ((cycleDetection tid desc m body).2 tid =
      ((body (Function.update m tid (insert desc (m tid)))).2 tid).erase desc) ∧
    ((cycleDetection tid desc m body).1 =
      ((body (Function.update m tid (insert desc (m tid)))).1).mapError Sum.inr) ∧
    (∀ t, t ≠ tid →
      (cycleDetection tid desc m body).2 t =
        (body (Function.update m tid (insert desc (m tid)))).2 t) ∧
    (∀ m' : BuildsMap, desc ∈ m' tid →
      cycleDetection tid desc m' body = (.error (.inl (m' tid)), m')) ∧
    ((cycleDetection tid desc m (fun m₁ => cycleDetection tid desc m₁ body)).1 =
      .error (.inr (.inl (insert desc (m tid))))) := by
  have henter : cycleEnter tid desc m =
      .ok (Function.update m tid (insert desc (m tid))) := by
    simp [cycleEnter, hnew]
  have hmem : desc ∈ Function.update m tid (insert desc (m tid)) tid := by
    simp [Function.update_same]
  refine ⟨henter, by simp [Function.update_same], ?_, ?_, ?_, ?_, ?_⟩
  · rcases hb : body (Function.update m tid (insert desc (m tid))) with ⟨r, m₂⟩
    simp [cycleDetection, henter, hb, cycleExit, Function.update_same]
  · rcases hb : body (Function.update m tid (insert desc (m tid))) with ⟨r, m₂⟩
    simp [cycleDetection, henter, hb]
  · intro t ht
    rcases hb : body (Function.update m tid (insert desc (m tid))) with ⟨r, m₂⟩
    simp [cycleDetection, henter, hb, cycleExit, Function.update_noteq ht]
  · intro m' hmem'
    simp [cycleDetection, cycleEnter, hmem']
  · simp [cycleDetection, cycleEnter, hnew, Function.update_same, Except.mapError]

/-- Witness for C8: a fresh descriptor on thread 0 of an empty table, around a
body that leaves the table alone. -/
theorem C8_cycle_detection_guard_witness :
    (("a", "1") ∉ emptyBuilds 0) ∧
    (cycleDetection 0 ("a", "1") emptyBuilds idBody).1 =
      ((idBody (Function.update emptyBuilds 0
        (insert ("a", "1") (emptyBuilds 0)))).1).mapError Sum.inr := by
  have h : ("a", "1") ∉ emptyBuilds 0 := by simp [emptyBuilds]
  exact ⟨h, (C8_cycle_detection_guard 0 ("a", "1") emptyBuilds idBody h).2.2.2.1⟩

/-- C7 counterexample: `build_wheel` invoked with `only_meta=True`, against a
backend whose `prepare_metadata_for_build_wheel` hook reports
`undefined_hook`, raises `BuildError` — the claim says this very case does not
raise. -/
theorem C7_prepare_metadata_undefined_raises :
    (build_wheel prepUndefinedHooks "dist" none true false).result =
      .error (.buildError "build backend did not produced wheel metadata") := by
  decide

/-- C7 (amended): `undefined_hook` is recoverable exactly for the
`get_requires_for_build_*` hooks — the build proceeds to the following hook —
while for `prepare_metadata_for_build_wheel` (under `only_meta`) and for the
required hooks `build_wheel`, `build_editable` and `build_sdist` it raises
`BuildError`. -/
theorem C7_undefined_hook_fatality (execHook : String → BuildCycleResult)
    (d : String) (t : Option String) (rv : BuildResultVal) (s : String) :
    (execHook "get_requires_for_build_wheel" = ⟨.undefinedHook, rv⟩ →
      execHook "build_wheel" = ⟨.success, .vstr s⟩ →
      (build_wheel execHook d t false false).result = .ok (t.getD d ++ "/" ++ s)) ∧
    (execHook "get_requires_for_build_editable" = ⟨.undefinedHook, rv⟩ →
      execHook "build_editable" = ⟨.success, .vstr s⟩ →
      (build_wheel execHook d t false true).result = .ok (t.getD d ++ "/" ++ s)) ∧
    (execHook "get_requires_for_build_sdist" = ⟨.undefinedHook, rv⟩ →
      execHook "build_sdist" = ⟨.success, .vstr s⟩ →
      (build_sdist execHook d t).result = .ok (t.getD d ++ "/" ++ s)) ∧
    (execHook "get_requires_for_build_wheel" = ⟨.undefinedHook, rv⟩ →
      (execHook "prepare_metadata_for_build_wheel").status = .undefinedHook →
      (build_wheel execHook d t true false).result =
        .error (.buildError "build backend did not produced wheel metadata")) ∧
    (execHook "get_requires_for_build_wheel" = ⟨.undefinedHook, rv⟩ →
      (execHook "build_wheel").status = .undefinedHook →
      (build_wheel execHook d t false false).result =
        .error (.buildError "build backend did not produced expected wheel")) ∧
    (execHook "get_requires_for_build_editable" = ⟨.undefinedHook, rv⟩ →
      (execHook "build_editable").status = .undefinedHook →
      (build_wheel execHook d t false true).result =
        .error (.buildError "build backend did not produced expected wheel")) ∧
    (execHook "get_requires_for_build_sdist" = ⟨.undefinedHook, rv⟩ →
      (execHook "build_sdist").status = .undefinedHook →
      (build_sdist execHook d t).result =
        .error (.buildError "build backend did not produced expected sdist")) := by
  refine ⟨?_, ?_, ?_, ?_, ?_, ?_, ?_⟩ <;> intro h1 h2 <;>
    simp [build_wheel, build_sdist, h1, h2, pathJoin]

/-- Witness for C7 (amended): the all-optional-hooks-undefined oracle builds a
wheel, an editable wheel and an sdist, and the all-hooks-undefined oracle fails
each required hook. -/
theorem C7_undefined_hook_fatality_witness :
    (optionalUndefinedHooks "get_requires_for_build_wheel" =
      ⟨.undefinedHook, .vnone⟩) ∧
    (optionalUndefinedHooks "build_wheel" = ⟨.success, .vstr "pkg.whl"⟩) ∧
    (build_wheel optionalUndefinedHooks "dist" none false false).result =
      .ok ("dist" ++ "/" ++ "pkg.whl") ∧
    (build_sdist optionalUndefinedHooks "dist" none).result =
      .ok ("dist" ++ "/" ++ "pkg.tar.gz") ∧
    (build_wheel allUndefinedHooks "dist" none true false).result =
      .error (.buildError "build backend did not produced wheel metadata") ∧
    (build_wheel allUndefinedHooks "dist" none false false).result =
      .error (.buildError "build backend did not produced expected wheel") ∧
    (build_sdist allUndefinedHooks "dist" none).result =
      .error (.buildError "build backend did not produced expected sdist") := by
  refine ⟨by decide, by decide, ?_, ?_, ?_, ?_, ?_⟩
  · exact (C7_undefined_hook_fatality optionalUndefinedHooks "dist" none .vnone
      "pkg.whl").1 (by decide) (by decide)
  · exact (C7_undefined_hook_fatality optionalUndefinedHooks "dist" none .vnone
      "pkg.tar.gz").2.2.1 (by decide) (by decide)
  · exact (C7_undefined_hook_fatality allUndefinedHooks "dist" none .vnone
      "x").2.2.2.1 (by decide) (by decide)
  · exact (C7_undefined_hook_fatality allUndefinedHooks "dist" none .vnone
      "x").2.2.2.2.1 (by decide) (by decide)
  · exact (C7_undefined_hook_fatality allUndefinedHooks "dist" none .vnone
      "x").2.2.2.2.2.2 (by decide) (by decide)

/-- Helper: `firstNonEmpty` returns the first non-empty result of the search
list. -/
theorem firstNonEmpty_first {α : Type} (dep : Dependency)
    (pre : List (Dependency → List α)) (r : Dependency → List α)
    (post : List (Dependency → List α))
    (hpre : ∀ r' ∈ pre, r' dep = []) (hr : r dep ≠ []) :
    firstNonEmpty (pre ++ r :: post) dep = r dep := by
  induction pre with
  | nil =>
    simp only [List.nil_append]
    cases hrd : r dep with
    | nil => exact absurd hrd hr
    | cons a l =>
      unfold firstNonEmpty
      rw [hrd]
  | cons r' rest ih =>
    have hr' : r' dep = [] := hpre r' (by simp)
    have hrec := ih (fun x hx => hpre x (by simp [hx]))
    simp only [List.cons_append]
    unfold firstNonEmpty
    rw [hr']
    exact hrec

/-- Helper: `firstNonEmpty` of an everywhere-empty search list is empty. -/
theorem firstNonEmpty_all_empty {α : Type} (dep : Dependency)
    (l : List (Dependency → List α)) (h : ∀ r ∈ l, r dep = []) :
    firstNonEmpty l dep = [] := by
  induction l with
  | nil => rfl
  | cons r rest ih =>
    have hr : r dep = [] := h r (by simp)
    unfold firstNonEmpty
    rw [hr]
    exact ih (fun x hx => h x (by simp [hx]))

/-- C6: the composite repository resolves a dependency in exactly this order —
a URL dependency goes to the handler registered for the URL's protocol (a
missing handler raising the no-handler error, whatever is pinned or searchable),
otherwise a pinned package delegates exclusively to its configured repository,
and otherwise the first search-list entry with a non-empty match wins, with no
merging across entries and the empty list when every entry is empty. -/
theorem C6_composite_match_order {α : Type} (self : CompositeRepository α)
    (dep : Dependency) :
    (∀ u repo, dep.specificUrl = some u → u.protocol ≠ "" →
      alookup self.urlHandlers u.protocol = some repo →
      self.doMatch dep = .ok (repo dep)) ∧
    (∀ u, dep.specificUrl = some u → u.protocol ≠ "" →
      alookup self.urlHandlers u.protocol = none →
      self.doMatch dep = .error
        ("could not find repository to handle url with protocol: " ++ u.protocol)) ∧
    (∀ repo, dep.specificUrl = none →
      alookup self.packageAssociatedRepos dep.packageName = some repo →
      self.doMatch dep = .ok (repo dep)) ∧
    (dep.specificUrl = none →
      alookup self.packageAssociatedRepos dep.packageName = none →
      self.doMatch dep = .ok (firstNonEmpty self.packageSearchList dep)) ∧
    (∀ pre r post, self.packageSearchList = pre ++ r :: post →
      (∀ r' ∈ pre, r' dep = []) → r dep ≠ [] →
      firstNonEmpty self.packageSearchList dep = r dep) ∧
    ((∀ r ∈ self.packageSearchList, r dep = []) →
      firstNonEmpty self.packageSearchList dep = []) := by
  refine ⟨?_, ?_, ?_, ?_, ?_, ?_⟩
  · intro u repo hu hp hrepo
    simp [CompositeRepository.doMatch, hu, hp, hrepo]
  · intro u hu hp hrepo
    simp [CompositeRepository.doMatch, hu, hp, hrepo]
  · intro repo hu hrepo
    simp [CompositeRepository.doMatch, hu, hrepo]
  · intro hu hrepo
    simp [CompositeRepository.doMatch, hu, hrepo]
  · intro pre r post hsplit hpre hr
    rw [hsplit]
    exact firstNonEmpty_first dep pre r post hpre hr
  · exact firstNonEmpty_all_empty dep self.packageSearchList

/-- Witness for C6: the concrete composite repository routes a `git` URL to its
handler, errors on an unhandled `svn` URL, delegates a pinned package, and
returns the first non-empty search result for everything else. -/
theorem C6_composite_match_order_witness :
    witnessComposite.doMatch ⟨"x", some ⟨"git"⟩⟩ = .ok [1] ∧
    witnessComposite.doMatch ⟨"x", some ⟨"svn"⟩⟩ =
      .error "could not find repository to handle url with protocol: svn" ∧
    witnessComposite.doMatch ⟨"pinned", none⟩ = .ok [1] ∧
    witnessComposite.doMatch ⟨"y", none⟩ = .ok [1] := by
  refine ⟨?_, ?_, ?_, ?_⟩
  · exact (C6_composite_match_order witnessComposite ⟨"x", some ⟨"git"⟩⟩).1
      ⟨"git"⟩ unitRepo rfl (by decide) rfl
  · exact (C6_composite_match_order witnessComposite ⟨"x", some ⟨"svn"⟩⟩).2.1
      ⟨"svn"⟩ rfl (by decide) rfl
  · exact (C6_composite_match_order witnessComposite ⟨"pinned", none⟩).2.2.1
      unitRepo rfl rfl
  · have h4 := (C6_composite_match_order witnessComposite ⟨"y", none⟩).2.2.2.1 rfl rfl
    have h5 := (C6_composite_match_order witnessComposite ⟨"y", none⟩).2.2.2.2.1
      [emptyRepo] unitRepo [] rfl
      (fun r' hr' => by
        simp only [List.mem_singleton] at hr'
        rw [hr']
        rfl)
      (by decide)
    rw [h4, h5]
    rfl

/-- Helper: looking up in an association list after mapping the values. -/
theorem alookup_map_value {α β : Type} (l : List (String × α)) (f : α → β) (k : String) :
    alookup (l.map (fun pa => (pa.1, f pa.2))) k = (alookup l k).map f := by
  induction l with
  | nil => rfl
  | cons p rest ih =>
    unfold alookup at ih ⊢
    simp only [List.map_cons, List.find?_cons]
    by_cases h : p.1 = k
    · simp [h]
    · simp only [h, decide_False]
      exact ih

/-- Helper: a default-dict read after mapping the values by a function that
preserves the empty list. -/
theorem aget_map_value {α β : Type} (l : List (String × List α)) (f : List α → List β)
    (hf : f [] = []) (k : String) :
    aget (l.map (fun pa => (pa.1, f pa.2))) k = f (aget l k) := by
  unfold aget
  rw [alookup_map_value]
  cases alookup l k <;> simp [hf]

/-- C5: after `backtrack(L)`, every surviving assignment in the order log and
in every per-package list has decision level at most `L`, every surviving
required-package entry and every surviving decision has level at most `L`, the
surviving order log is exactly the level-filtered original (so the survivors
keep their original relative order, both in the order log and per package),
and a level-monotone order log stays level-monotone. -/
theorem C5_backtrack_invariant {V : Type} [LinearOrder V]
    (s : PartialSolution V) (L : Nat) :
    (∀ a ∈ (s.backtrack L).assignmentsByOrder, a.decisionLevel ≤ L) ∧
    (∀ pa ∈ (s.backtrack L).assignmentsByPackage, ∀ a ∈ pa.2, a.decisionLevel ≤ L) ∧
    (∀ pr ∈ (s.backtrack L).requiredPackages, pr.2 ≤ L) ∧
    (∀ pd ∈ (s.backtrack L).decisions, pd.2.decisionLevel ≤ L) ∧
    (s.backtrack L).assignmentsByOrder.Sublist s.assignmentsByOrder ∧
    (∀ p, (aget (s.backtrack L).assignmentsByPackage p).Sublist
      (aget s.assignmentsByPackage p)) ∧
    ((s.backtrack L).assignmentsByOrder =
      s.assignmentsByOrder.filter (fun a => a.decisionLevel ≤ L)) ∧
    (List.Pairwise (fun a b => a.decisionLevel ≤ b.decisionLevel)
        s.assignmentsByOrder →
      List.Pairwise (fun a b => a.decisionLevel ≤ b.decisionLevel)
        (s.backtrack L).assignmentsByOrder) := by
  refine ⟨?_, ?_, ?_, ?_, ?_, ?_, rfl, ?_⟩
  · intro a ha
    simp only [PartialSolution.backtrack, List.mem_filter, decide_eq_true_eq] at ha
    exact ha.2
  · intro pa hpa a ha
    simp only [PartialSolution.backtrack, List.mem_map] at hpa
    obtain ⟨orig, _, rfl⟩ := hpa
    simp only [List.mem_filter, decide_eq_true_eq] at ha
    exact ha.2
  · intro pr hpr
    simp only [PartialSolution.backtrack, List.mem_filter, decide_eq_true_eq] at hpr
    exact hpr.2
  · intro pd hpd
    simp only [PartialSolution.backtrack, List.mem_filter, decide_eq_true_eq] at hpd
    exact hpd.2
  · exact List.filter_sublist _
  · intro p
    have : aget (s.backtrack L).assignmentsByPackage p =
        (aget s.assignmentsByPackage p).filter (fun a => a.decisionLevel ≤ L) :=
      aget_map_value s.assignmentsByPackage _ rfl p
    rw [this]
    exact List.filter_sublist _
  · intro h
    exact List.Pairwise.sublist (List.filter_sublist _) h

/-- C1 (the code evaluated at the failing input): on the specification's own
end-to-end scenario 3 — the root declares the two dependency terms `A >= 2`
and `A < 2` and `A` has versions 1 and 3 — `Solver.solve` returns the decision
map `{root: 0, A: 1}` without raising `UnsolvableProblemException`, although
the declared term `A >= 2` is not satisfied by `A = 1`:
`_make_next_decision` keys the declared dependency terms by package name
(`{d.package: PackageDependency(d) for d in ...}`), silently dropping every
term but the last one per package. -/
theorem C1_solve_drops_duplicate_package_dependency_terms :
    Solver.solve 60 scenario3Problem "root" = .ok [("root", 0), ("A", 1)] ∧
    (⟨"A", .vrange ⟨some 2, none, true, false⟩, false⟩ : Term Nat) ∈
      scenario3Problem.getDependencies "root" 0 ∧
    ¬ solutionSatisfiesDependencies scenario3Problem [("root", 0), ("A", 1)] := by
  refine ⟨by decide, by decide, ?_⟩
  unfold solutionSatisfiesDependencies
  decide

/-- Witness for C5: the concrete three-assignment solution backtracked to
level 1 keeps its level-monotone order log. -/
theorem C5_backtrack_invariant_witness :
    List.Pairwise (fun a b => a.decisionLevel ≤ b.decisionLevel)
      witnessSolution.assignmentsByOrder ∧
    List.Pairwise (fun a b => a.decisionLevel ≤ b.decisionLevel)
      (witnessSolution.backtrack 1).assignmentsByOrder :=
  ⟨by decide, (C5_backtrack_invariant witnessSolution 1).2.2.2.2.2.2.2 (by decide)⟩


/-- Helper: reading an index after a `setAt` update. -/
theorem setAt_getElem? {α : Type} (l : List α) (j : Nat) (f : α → α) (i : Nat) :
    (setAt l j f)[i]? = if j = i then (l[i]?).map f else l[i]? := by
  unfold setAt
  cases h : l[j]? with
  | none =>
    by_cases hji : j = i
    · subst hji; simp [h]
    · simp [hji]
  | some a =>
    obtain ⟨hlt, hget⟩ := List.getElem?_eq_some_iff.mp h
    rw [List.getElem?_set]
    by_cases hji : j = i
    · subst hji; simp [hlt, h, hget]
    · simp [hji]

/-- Helper: reading an index after a fold of `setAt` updates over `range m`. -/
theorem foldl_setAt_range_getElem? {α : Type} (g : Nat → α → α) (l : List α) (m i : Nat) :
    ((List.range m).foldl (fun acc j => setAt acc j (g j)) l)[i]? =
      if i < m then (l[i]?).map (g i) else l[i]? := by
  induction m with
  | zero => simp
  | succ m ih =>
    rw [List.range_succ, List.foldl_append]
    simp only [List.foldl_cons, List.foldl_nil]
    rw [setAt_getElem?, ih]
    by_cases him : m = i
    · subst him
      have h1 : ¬ m < m := Nat.lt_irrefl m
      have h2 : m < m + 1 := Nat.lt_succ_self m
      rw [if_pos rfl, if_neg h1, if_pos h2]
    · by_cases hlt : i < m
      · have h2 : i < m + 1 := Nat.lt_succ_of_lt hlt
        rw [if_neg him, if_pos hlt, if_pos h2]
      · have h2 : ¬ i < m + 1 := by omega
        rw [if_neg him, if_neg hlt, if_neg h2]

/-- Helper: reading an index after a fold of `setAt` updates over `range' 1 k`. -/
theorem foldl_setAt_range'_getElem? {α : Type} (g : Nat → α → α) (l : List α) (k i : Nat) :
    ((List.range' 1 k).foldl (fun acc j => setAt acc j (g j)) l)[i]? =
      if 1 ≤ i ∧ i < 1 + k then (l[i]?).map (g i) else l[i]? := by
  induction k with
  | zero =>
    have h : ¬ (1 ≤ i ∧ i < 1 + 0) := by omega
    rw [if_neg h]
    rfl
  | succ k ih =>
    have hc : List.range' 1 (k + 1) = List.range' 1 k ++ [1 + 1 * k] := List.range'_concat 1 k
    have hk1 : 1 + 1 * k = k + 1 := by omega
    rw [hk1] at hc
    rw [hc, List.foldl_append]
    simp only [List.foldl_cons, List.foldl_nil]
    rw [setAt_getElem?, ih]
    by_cases him : k + 1 = i
    · subst him
      have hA : ¬ (1 ≤ k + 1 ∧ k + 1 < 1 + k) := by omega
      have hB : 1 ≤ k + 1 ∧ k + 1 < 1 + (k + 1) := by omega
      rw [if_pos rfl, if_neg hA, if_pos hB]
    · by_cases hin : 1 ≤ i ∧ i < 1 + k
      · have hB : 1 ≤ i ∧ i < 1 + (k + 1) := by omega
        rw [if_neg him, if_pos hin, if_pos hB]
      · have hB : ¬ (1 ≤ i ∧ i < 1 + (k + 1)) := by omega
        rw [if_neg him, if_neg hin, if_neg hB]

/-- Helper: stable insertion after elements that all compare below. -/
theorem insertStable_append {α : Type} (le : α → α → Bool) (a : α) (l : List α)
    (h : ∀ b ∈ l, le b a = true) : insertStable le a l = l ++ [a] := by
  induction l with
  | nil => rfl
  | cons b bl ih =>
    unfold insertStable
    rw [h b (by simp), if_pos rfl]
    rw [ih (fun x hx => h x (by simp [hx]))]
    rfl

/-- Helper: the stable sort leaves an already-sorted list unchanged. -/
theorem stableSort_of_pairwise {α : Type} (le : α → α → Bool) (l : List α)
    (h : List.Pairwise (fun a b => le a b = true) l) : stableSort le l = l := by
  induction l using List.reverseRecOn with
  | nil => rfl
  | append_singleton xs a ih =>
    rw [List.pairwise_append] at h
    rw [stableSort, List.foldl_append]
    simp only [List.foldl_cons, List.foldl_nil]
    have hxs : stableSort le xs = xs := ih h.1
    rw [stableSort] at hxs
    rw [hxs]
    exact insertStable_append le a xs (fun b hb => h.2.2 b hb a (by simp))

/-- Helper: zipping preserves pairwise relations on the first components. -/
theorem pairwise_zip_fst {α β : Type} {R : α → α → Prop} (l₁ : List α) (l₂ : List β)
    (h : List.Pairwise R l₁) : List.Pairwise (fun a b => R a.1 b.1) (l₁.zip l₂) := by
  induction l₁ generalizing l₂ with
  | nil => simp
  | cons a as ih =>
    cases l₂ with
    | nil => simp
    | cons b bs =>
      rw [List.zip_cons_cons, List.pairwise_cons]
      rw [List.pairwise_cons] at h
      refine ⟨?_, ih bs h.2⟩
      intro q hq
      exact h.1 q.1 (List.of_mem_zip hq).1

/-- Helper: sorting the version/index pairs of a strictly ascending version list
is the identity. -/
theorem stableSort_pairs_eq {V : Type} [LinearOrder V] (vs : List V)
    (hs : List.Pairwise (· < ·) vs) :
    stableSort (fun a b => decide (a.1 ≤ b.1)) (vs.zip (List.range vs.length)) =
      vs.zip (List.range vs.length) := by
  apply stableSort_of_pairwise
  have hz := pairwise_zip_fst (R := (· < ·)) vs (List.range vs.length) hs
  exact hz.imp (fun hab => by simpa using le_of_lt hab)


/-- Helper: the successor-link loop, position-wise. -/
theorem assignNexts_range_getElem? {V : Type} [LinearOrder V]
    (l : List (PackageVersion V)) (n i : Nat) :
    (assignNexts (List.range n) n l)[i]? =
      if i < n - 1 then (l[i]?).map (fun pv => { pv with next := some (i + 1) })
      else l[i]? := by
  unfold assignNexts
  have hext : ∀ (acc : List (PackageVersion V)), ∀ j ∈ List.range (n - 1),
      (match (List.range n)[j]?, (List.range n)[j + 1]? with
        | some si, some ni => setAt acc si (fun pv => { pv with next := some ni })
        | _, _ => acc) =
      setAt acc j (fun pv => { pv with next := some (j + 1) }) := by
    intro acc j hj
    rw [List.mem_range] at hj
    rw [List.getElem?_range (by omega), List.getElem?_range (by omega)]
  rw [List.foldl_ext _ _ _ hext]
  exact foldl_setAt_range_getElem? _ l (n - 1) i


/-- Helper: the generalized-constraint assignments, position-wise. -/
theorem assignGeneralized_range_getElem? {V : Type} [LinearOrder V]
    (vs : List V) (l : List (PackageVersion V)) (i : Nat) :
    (assignGeneralized (List.range vs.length) vs vs.length l)[i]? =
      if vs.length ≤ i then l[i]?
      else (l[i]?).map
        (fun pv => { pv with generalizedConstraint := codeGeneralized vs i }) := by
  unfold assignGeneralized
  by_cases h1 : vs.length = 1
  · rw [if_pos h1]
    rw [List.getElem?_range (by omega)]
    rw [setAt_getElem?]
    by_cases hi0 : 0 = i
    · have hic : codeGeneralized vs i = some .any := by
        unfold codeGeneralized
        rw [if_neg (by omega), if_pos h1]
      rw [if_pos hi0, if_neg (by omega), hic]
    · rw [if_neg hi0, if_pos (by omega)]
  · rw [if_neg h1]
    by_cases h0 : 1 ≤ vs.length
    · rw [if_pos h0]
      have h2 : 2 ≤ vs.length := by omega
      have hext : ∀ (acc : List (PackageVersion V)), ∀ j ∈ List.range' 1 (vs.length - 2),
          (match (List.range vs.length)[j]?, vs[j - 1]?, vs[j + 1]? with
            | some si, some lo, some hi => setAt acc si (fun pv =>
                { pv with
                    generalizedConstraint :=
                      some (.vrange ⟨some lo, some hi, false, false⟩) })
            | _, _, _ => acc) =
          setAt acc j
            (fun pv => { pv with generalizedConstraint := codeGeneralized vs j }) := by
        intro acc j hj
        rw [List.mem_range'] at hj
        obtain ⟨c, hc, hcj⟩ := hj
        rw [List.getElem?_range (by omega)]
        rw [List.getElem?_eq_getElem (by omega : j - 1 < vs.length),
            List.getElem?_eq_getElem (by omega : j + 1 < vs.length)]
        have hcode : codeGeneralized vs j =
            some (.vrange ⟨some vs[j - 1], some vs[j + 1], false, false⟩) := by
          unfold codeGeneralized
          rw [if_neg (by omega), if_neg h1, if_neg (by omega), if_neg (by omega)]
          rw [List.getElem?_eq_getElem (by omega : j - 1 < vs.length),
              List.getElem?_eq_getElem (by omega : j + 1 < vs.length)]
        rw [hcode]
      simp only []
      rw [List.foldl_ext _ _ _ hext]
      rw [List.getElem?_range (by omega : 0 < vs.length),
          List.getElem?_eq_getElem (by omega : 1 < vs.length)]
      rw [List.getElem?_range (by omega : vs.length - 1 < vs.length),
          List.getElem?_eq_getElem (by omega : vs.length - 1 < vs.length)]
      rw [setAt_getElem?, setAt_getElem?, foldl_setAt_range'_getElem?]
      by_cases hin : vs.length ≤ i
      · rw [if_neg (by omega), if_neg (by omega), if_neg (by omega), if_pos hin]
      · by_cases hil : vs.length - 1 = i
        · subst hil
          have hcode : codeGeneralized vs (vs.length - 1) =
              some (.vrange ⟨some vs[vs.length - 1], none, true, false⟩) := by
            unfold codeGeneralized
            rw [if_neg (by omega), if_neg h1, if_neg (by omega), if_pos rfl]
            rw [List.getElem?_eq_getElem (by omega : vs.length - 1 < vs.length)]
            rfl
          rw [if_pos rfl, if_neg (by omega), if_neg (by omega), if_neg hin, hcode]
        · by_cases hi0 : 0 = i
          · subst hi0
            have hcode : codeGeneralized vs 0 =
                some (.vrange ⟨none, some vs[1], false, false⟩) := by
              unfold codeGeneralized
              rw [if_neg (by omega), if_neg h1, if_pos rfl]
              rw [List.getElem?_eq_getElem (by omega : 1 < vs.length)]
              rfl
            rw [if_neg hil, if_pos rfl, if_neg (by omega), if_neg hin, hcode]
          · have hmid : 1 ≤ i ∧ i < 1 + (vs.length - 2) := by omega
            rw [if_neg hil, if_neg hi0, if_pos hmid, if_neg hin]
    · rw [if_neg h0, if_pos (by omega)]


/-- Helper: `Solver.package_versions` on a strictly ascending version list,
position-wise: specific-version terms, ascending successor links, and the
generalized constraints the code assigns. -/
theorem packageVersionsOf_getElem? {V : Type} [LinearOrder V] (vs : List V)
    (hs : List.Pairwise (· < ·) vs) (i : Nat) :
    (packageVersionsOf vs)[i]? =
      (vs[i]?).map (fun v =>
        { term := ⟨"p", .specific v, false⟩
          generalizedConstraint := codeGeneralized vs i
          dependencies := none
          next := if i + 1 < vs.length then some (i + 1) else none }) := by
  have h0 : packageVersionsOf vs =
      assignGeneralized
        ((stableSort (fun a b => decide (a.1 ≤ b.1)) (vs.zip (List.range vs.length))).map
          Prod.snd)
        ((stableSort (fun a b => decide (a.1 ≤ b.1)) (vs.zip (List.range vs.length))).map
          Prod.fst)
        vs.length
        (assignNexts
          ((stableSort (fun a b => decide (a.1 ≤ b.1)) (vs.zip (List.range vs.length))).map
            Prod.snd)
          vs.length
          (vs.map (fun v => { term := ⟨"p", .specific v, false⟩ }))) := rfl
  rw [h0, stableSort_pairs_eq vs hs]
  rw [List.map_snd_zip _ _ (by simp), List.map_fst_zip _ _ (by simp)]
  rw [assignGeneralized_range_getElem?, assignNexts_range_getElem?]
  by_cases hin : vs.length ≤ i
  · rw [if_pos hin, if_neg (by omega), List.getElem?_map, List.getElem?_eq_none hin]
    rfl
  · rw [if_neg hin]
    by_cases hinext : i < vs.length - 1
    · rw [if_pos hinext, List.getElem?_map]
      cases hv : vs[i]? with
      | none => rfl
      | some v =>
        have hlt : i + 1 < vs.length := by omega
        simp [hlt]
    · rw [if_neg hinext, List.getElem?_map]
      cases hv : vs[i]? with
      | none => rfl
      | some v =>
        have hlt : ¬ i + 1 < vs.length := by omega
        simp [hlt]

/-- C3 counterexample: for known versions 1 < 2, the code assigns the last
version the generalized constraint `[2, oo)` — starting at version 2 itself,
inclusively — while the claim predicts `(1, oo)` (from the previous known
version, exclusive, with the bound absent at the end of the chain). -/
theorem C3_last_generalized_constraint_counterexample :
    ((packageVersionsOf ([1, 2] : List Nat)).map (fun pv => pv.generalizedConstraint)) =
      [some (.vrange ⟨none, some 2, false, false⟩),
       some (.vrange ⟨some 2, none, true, false⟩)] ∧
    claimGeneralized ([1, 2] : List Nat) 1 =
      some (.vrange ⟨some 1, none, false, false⟩) ∧
    ¬ ((packageVersionsOf ([1, 2] : List Nat)).map (fun pv => pv.generalizedConstraint) =
      [claimGeneralized ([1, 2] : List Nat) 0, claimGeneralized ([1, 2] : List Nat) 1]) := by
  decide

/-- C3 (amended): for every package whose known versions are ascending
`v1 < ... < vn`, `Solver.package_versions` assigns each version a
specific-version term and the generalized constraint `codeGeneralized`: the
span from the previous known version (exclusive) to the next known version
(exclusive) with the upper bound absent at the end of the chain and the lower
bound absent at its start, `AnyVersion` for a single known version — except
that the last version of a chain of two or more gets `[vn, oo)`, the range
starting at that last version itself, inclusively; at every other position
the claim's predicted constraint agrees with the code's. -/
theorem C3_generalized_constraint_shape {V : Type} [LinearOrder V] (vs : List V)
    (hs : List.Pairwise (· < ·) vs) :
    (∀ i : Nat, ((packageVersionsOf vs)[i]?).map (fun (pv : PackageVersion V) => pv.term) =
      (vs[i]?).map (fun v => (⟨"p", .specific v, false⟩ : Term V))) ∧
    (∀ i : Nat, ((packageVersionsOf vs)[i]?).bind
        (fun (pv : PackageVersion V) => pv.generalizedConstraint) =
      codeGeneralized vs i) ∧
    (∀ i : Nat, i ≠ vs.length - 1 ∨ vs.length ≤ 1 →
      codeGeneralized vs i = claimGeneralized vs i) := by
  refine ⟨?_, ?_, ?_⟩
  · intro i
    rw [packageVersionsOf_getElem? vs hs i]
    cases vs[i]? <;> rfl
  · intro i
    rw [packageVersionsOf_getElem? vs hs i]
    cases hv : vs[i]? with
    | none =>
      have hge : vs.length ≤ i := by
        by_contra hc
        rw [List.getElem?_eq_getElem (by omega)] at hv
        exact Option.noConfusion hv
      unfold codeGeneralized
      rw [if_pos hge]
      rfl
    | some v => rfl
  · intro i hi
    unfold codeGeneralized claimGeneralized
    by_cases ha : vs.length ≤ i
    · rw [if_pos ha, if_pos ha]
    · rw [if_neg ha, if_neg ha]
      by_cases hb : vs.length = 1
      · rw [if_pos hb, if_pos hb]
      · rw [if_neg hb, if_neg hb]
        by_cases hc : i = 0
        · rw [if_pos hc, if_pos hc]
        · rw [if_neg hc, if_neg hc]
          by_cases hd : i = vs.length - 1
          · rcases hi with h | h
            · exact absurd hd h
            · omega
          · rw [if_neg hd, if_neg hd]

/-- Witness for C3 (amended) at the ascending chain 1 < 2 < 3. -/
theorem C3_generalized_constraint_shape_witness :
    List.Pairwise (· < ·) ([1, 2, 3] : List Nat) ∧
    ((packageVersionsOf ([1, 2, 3] : List Nat))[1]?).bind
      (fun (pv : PackageVersion Nat) => pv.generalizedConstraint) =
      codeGeneralized ([1, 2, 3] : List Nat) 1 :=
  ⟨by decide, (C3_generalized_constraint_shape ([1, 2, 3] : List Nat) (by decide)).2.1 1⟩

/-- Helper: `Solver.package_versions` touches only the per-package version
chains of the solver state. -/
theorem materializeVersions_fst {V : Type} [LinearOrder V] (problem : Problem V)
    (st : SolverState V) (package : String) :
    ((materializeVersions problem st package).1).solution = st.solution ∧
    ((materializeVersions problem st package).1).rootPackage = st.rootPackage ∧
    ((materializeVersions problem st package).1).incompatStore = st.incompatStore ∧
    ((materializeVersions problem st package).1).incompatIndex = st.incompatIndex := by
  by_cases h : (aget st.packageVersions package).isEmpty
  · simp [materializeVersions, h]
  · simp [materializeVersions, h]

/-- Helper: one candidate-matching step leaves everything but the version
chains unchanged. -/
theorem decisionMatchingStep_state {V : Type} [LinearOrder V] (problem : Problem V)
    (st₀ st₁ : SolverState V) (m₀ m₁ : List (String × List Nat)) (package : String)
    (h : decisionMatchingStep problem (st₀, m₀) package = some (st₁, m₁)) :
    st₁.solution = st₀.solution ∧ st₁.rootPackage = st₀.rootPackage ∧
    st₁.incompatStore = st₀.incompatStore ∧ st₁.incompatIndex = st₀.incompatIndex := by
  unfold decisionMatchingStep at h
  rw [Option.bind_eq_some] at h
  obtain ⟨lastA, hl, h⟩ := h
  rw [Option.map_eq_some'] at h
  obtain ⟨idxs, hf, heq⟩ := h
  have h1 : st₁ = (materializeVersions problem st₀ package).1 :=
    (congrArg Prod.fst heq).symm
  rw [h1]
  exact materializeVersions_fst problem st₀ package

/-- Helper: the candidate-matching fold leaves everything but the version
chains unchanged. -/
theorem decisionMatching_fold_state {V : Type} [LinearOrder V] (problem : Problem V)
    (ups : List String) :
    ∀ (st₀ st₁ : SolverState V) (m₀ m₁ : List (String × List Nat)),
      ups.foldlM (decisionMatchingStep problem) (st₀, m₀) = some (st₁, m₁) →
      st₁.solution = st₀.solution ∧ st₁.rootPackage = st₀.rootPackage ∧
      st₁.incompatStore = st₀.incompatStore ∧ st₁.incompatIndex = st₀.incompatIndex := by
  induction ups with
  | nil =>
    intro st₀ st₁ m₀ m₁ h
    simp only [List.foldlM_nil, Option.pure_def, Option.some.injEq] at h
    rw [((Prod.mk.injEq _ _ _ _).mp h).1]
    exact ⟨rfl, rfl, rfl, rfl⟩
  | cons p ps ih =>
    intro st₀ st₁ m₀ m₁ h
    rw [List.foldlM_cons] at h
    cases hstep : decisionMatchingStep problem (st₀, m₀) p with
    | none =>
      rw [hstep] at h
      exact absurd h (by simp)
    | some s =>
      rw [hstep] at h
      have hrest : ps.foldlM (decisionMatchingStep problem) s = some (st₁, m₁) := h
      obtain ⟨e1, e2, e3, e4⟩ :=
        decisionMatchingStep_state problem st₀ s.1 m₀ s.2 p hstep
      obtain ⟨f1, f2, f3, f4⟩ := ih s.1 st₁ s.2 m₁ hrest
      exact ⟨f1.trans e1, f2.trans e2, f3.trans e3, f4.trans e4⟩

/-- Helper: the candidate-matching loop leaves the partial solution, the
incompatibility store and the index unchanged. -/
theorem decisionMatching_state {V : Type} [LinearOrder V] (problem : Problem V)
    (st st₁ : SolverState V) (ups : List String) (matching : List (String × List Nat))
    (h : decisionMatching problem st ups = some (st₁, matching)) :
    st₁.solution = st.solution ∧ st₁.rootPackage = st.rootPackage ∧
    st₁.incompatStore = st.incompatStore ∧ st₁.incompatIndex = st.incompatIndex :=
  decisionMatching_fold_state problem ups st st₁ [] matching h

/-- Helper: `_add_incompatability` does not touch the partial solution. -/
theorem addIncompatability_solution {V : Type} [LinearOrder V] (st : SolverState V)
    (i : Nat) :
    (addIncompatability st i).solution = st.solution ∧
    (addIncompatability st i).rootPackage = st.rootPackage := by
  unfold addIncompatability
  cases h : st.incompatStore[i]? with
  | none => exact ⟨rfl, rfl⟩
  | some inc =>
    by_cases ha : inc.added
    · simp [ha]
    · simp [ha]

/-- Helper: `Incompatability.create` of a single term. -/
theorem create_singleton {V : Type} [LinearOrder V] (t : Term V)
    (ic : Option (Nat × Nat)) (ec : Option String) :
    Incompatability.create [t] ic ec = ⟨[t], ic, ec, false⟩ := by
  simp [Incompatability.create, Term.join, stableSort, insertStable]

/-- Helper: looking up the key just written. -/
theorem alookup_aupdate_self {α : Type} (l : List (String × α)) (k : String) (v : α) :
    alookup (aupdate l k v) k = some v := by
  induction l with
  | nil => simp [aupdate, alookup]
  | cons p rest ih =>
    unfold aupdate
    by_cases h : p.1 = k
    · rw [if_pos h]
      simp [alookup]
    · rw [if_neg h]
      unfold alookup at ih ⊢
      rw [List.find?_cons]
      simp only [h, decide_False]
      exact ih


/-- C4: in the decision step, when the chosen undecided package `p` (the first
one with the fewest candidates) has zero candidate versions matching its
current accumulated constraint, `_make_next_decision` makes no decision — the
partial solution is returned unchanged — and instead registers through
`_add_incompatability` the incompatibility with the single term
`(p, accumulated)` and external cause `"No Versions matching "` followed by
that constraint (stored marked `added`, and appended to `p`'s incompatibility
index entry whenever no equal-termed incompatibility is indexed there), and
returns `p` so that unit propagation runs again. -/
theorem C4_zero_candidates_registers_incompatibility {V : Type} [LinearOrder V] [ToString V]
    (problem : Problem V) (st st₁ : SolverState V)
    (matching : List (String × List Nat)) (p : String) (lastA : Assignment V)
    (hm : decisionMatching problem st st.solution.undecidedPackages = some (st₁, matching))
    (hp : firstMinBy st.solution.undecidedPackages
      (fun q => ((alookup matching q).getD []).length) = some p)
    (hzero : (alookup matching p).getD [] = [])
    (hlast : (aget st₁.solution.assignmentsByPackage p).getLast? = some lastA) :
    makeNextDecision problem st =
      some (some p, noVersionsRegistered st₁ p lastA.accumulated) ∧
    (noVersionsRegistered st₁ p lastA.accumulated).solution = st.solution ∧
    (noVersionsRegistered st₁ p lastA.accumulated).incompatStore[st₁.incompatStore.length]? =
      some ⟨[⟨p, lastA.accumulated, false⟩], none,
        some ("No Versions matching " ++ lastA.accumulated.show), true⟩ ∧
    ((∀ id ∈ aget st₁.incompatIndex p, id < st₁.incompatStore.length) →
      (∀ id ∈ aget st₁.incompatIndex p, ∀ inc : Incompatability V,
        st₁.incompatStore[id]? = some inc →
        inc.terms ≠ [⟨p, lastA.accumulated, false⟩]) →
      aget (noVersionsRegistered st₁ p lastA.accumulated).incompatIndex p =
        aget st₁.incompatIndex p ++ [st₁.incompatStore.length]) := by
  have hne : st.solution.undecidedPackages.isEmpty = false := by
    cases hu : st.solution.undecidedPackages with
    | nil => rw [hu] at hp; exact absurd hp (by simp [firstMinBy])
    | cons a l => rfl
  refine ⟨?_, ?_, ?_, ?_⟩
  · unfold makeNextDecision
    simp only [hne, Bool.false_eq_true, if_false]
    simp only [hm, hp, hzero, hlast, Option.bind_eq_bind, Option.some_bind]
    rfl
  · have h1 := (addIncompatability_solution
      { st₁ with incompatStore := st₁.incompatStore ++
          [Incompatability.create [⟨p, lastA.accumulated, false⟩] none
            (some ("No Versions matching " ++ lastA.accumulated.show))] }
      st₁.incompatStore.length).1
    have h2 := (decisionMatching_state problem st st₁
      st.solution.undecidedPackages matching hm).1
    exact h1.trans h2
  · unfold noVersionsRegistered addIncompatability
    rw [create_singleton, List.getElem?_concat_length]
    simp only [List.getElem?_set, List.length_append, List.length_cons,
      List.length_nil]
    simp
  · intro hbound hfresh
    unfold noVersionsRegistered addIncompatability
    rw [create_singleton, List.getElem?_concat_length]
    have hany : (aget st₁.incompatIndex p).any (fun i =>
        match ((st₁.incompatStore ++
            [(⟨[⟨p, lastA.accumulated, false⟩], none,
              some ("No Versions matching " ++ lastA.accumulated.show), false⟩ :
                Incompatability V)]).set st₁.incompatStore.length
            ⟨[⟨p, lastA.accumulated, false⟩], none,
              some ("No Versions matching " ++ lastA.accumulated.show), true⟩)[i]? with
        | some e => decide (e.terms = [⟨p, lastA.accumulated, false⟩])
        | none => false) = false := by
      rw [List.any_eq_false]
      intro id hid
      have hb := hbound id hid
      rw [List.getElem?_set, if_neg (by omega), List.getElem?_append, if_pos hb]
      cases he : st₁.incompatStore[id]? with
      | none => simp
      | some e =>
        simp only [decide_eq_true_eq]
        exact hfresh id hid e he
    simp only [List.foldl_cons, List.foldl_nil, hany, Bool.false_eq_true, if_false]
    unfold aget
    rw [alookup_aupdate_self]
    rfl

/-- Witness for C4: the concrete one-package state whose problem has no
versions at all. -/
theorem C4_zero_candidates_registers_incompatibility_witness :
    decisionMatching emptyProblem noVersionsState
        noVersionsState.solution.undecidedPackages =
      some (noVersionsStateMat, [("p", [])]) ∧
    makeNextDecision emptyProblem noVersionsState =
      some (some "p", noVersionsRegistered noVersionsStateMat "p" (.specific 1)) := by
  refine ⟨by decide, ?_⟩
  exact (C4_zero_candidates_registers_incompatibility emptyProblem noVersionsState
    noVersionsStateMat [("p", [])] "p"
    ⟨⟨"p", .specific 1, false⟩, 0, 0, some 0, .specific 1⟩
    (by decide) (by decide) (by decide) (by decide)).1


section C2Support

variable {V : Type} [LinearOrder V]

/-- Helper: a range's lower test is the `boundAbove` of its lower bound. -/
theorem aboveMin_eq_boundAbove (r : VRange V) (v : V) :
    r.aboveMin v = boundAbove (r.min, r.includeMin) v := by
  cases h : r.min <;> simp [VRange.aboveMin, boundAbove, h]

/-- Helper: a range's upper test is the `boundBelow` of its upper bound. -/
theorem belowMax_eq_boundBelow (r : VRange V) (v : V) :
    r.belowMax v = boundBelow (r.max, r.includeMax) v := by
  cases h : r.max <;> simp [VRange.belowMax, boundBelow, h]

/-- Helper: `tightLower` computes the conjunction of the two lower tests. -/
theorem boundAbove_tightLower (b₁ b₂ : Option V × Bool) (v : V) :
    boundAbove (tightLower b₁ b₂) v = (boundAbove b₁ v && boundAbove b₂ v) := by
  rcases b₁ with ⟨m₁, i₁⟩
  rcases b₂ with ⟨m₂, i₂⟩
  cases m₁ with
  | none => simp [tightLower, boundAbove]
  | some a =>
    cases m₂ with
    | none => simp [tightLower, boundAbove]
    | some b =>
      rcases lt_trichotomy a b with h | h | h
      · simp only [tightLower, if_pos h]
        by_cases hb : boundAbove (some b, i₂) v = true
        · have hav : a < v := by
            cases i₂ <;> simp [boundAbove] at hb
            · exact h.trans hb
            · exact lt_of_lt_of_le h hb
          have ha : boundAbove (some a, i₁) v = true := by
            cases i₁ <;> simp [boundAbove]
            · exact hav
            · exact hav.le
          simp [hb, ha]
        · rw [Bool.not_eq_true] at hb
          rw [hb, Bool.and_false]
      · subst h
        simp only [tightLower, lt_irrefl, if_false]
        by_cases hv : a < v
        · cases i₁ <;> cases i₂ <;> simp [boundAbove, hv, hv.le]
        · cases i₁ <;> cases i₂ <;> simp [boundAbove, hv]
      · simp only [tightLower, if_neg (asymm h), if_pos h]
        by_cases hb : boundAbove (some a, i₁) v = true
        · have hav : b < v := by
            cases i₁ <;> simp [boundAbove] at hb
            · exact h.trans hb
            · exact lt_of_lt_of_le h hb
          have ha : boundAbove (some b, i₂) v = true := by
            cases i₂ <;> simp [boundAbove]
            · exact hav
            · exact hav.le
          simp [hb, ha]
        · rw [Bool.not_eq_true] at hb
          rw [hb, Bool.false_and]

/-- Helper: `tightUpper` computes the conjunction of the two upper tests. -/
theorem boundBelow_tightUpper (b₁ b₂ : Option V × Bool) (v : V) :
    boundBelow (tightUpper b₁ b₂) v = (boundBelow b₁ v && boundBelow b₂ v) := by
  rcases b₁ with ⟨m₁, i₁⟩
  rcases b₂ with ⟨m₂, i₂⟩
  cases m₁ with
  | none => simp [tightUpper, boundBelow]
  | some a =>
    cases m₂ with
    | none => simp [tightUpper, boundBelow]
    | some b =>
      rcases lt_trichotomy a b with h | h | h
      · simp only [tightUpper, if_pos h]
        by_cases hb : boundBelow (some a, i₁) v = true
        · have hav : v < b := by
            cases i₁ <;> simp [boundBelow] at hb
            · exact hb.trans h
            · exact lt_of_le_of_lt hb h
          have ha : boundBelow (some b, i₂) v = true := by
            cases i₂ <;> simp [boundBelow]
            · exact hav
            · exact hav.le
          simp [hb, ha]
        · rw [Bool.not_eq_true] at hb
          rw [hb, Bool.false_and]
      · subst h
        simp only [tightUpper, lt_irrefl, if_false]
        by_cases hv : v < a
        · cases i₁ <;> cases i₂ <;> simp [boundBelow, hv, hv.le]
        · cases i₁ <;> cases i₂ <;> simp [boundBelow, hv]
      · simp only [tightUpper, if_neg (asymm h), if_pos h]
        by_cases hb : boundBelow (some b, i₂) v = true
        · have hav : v < a := by
            cases i₂ <;> simp [boundBelow] at hb
            · exact hb.trans h
            · exact lt_of_le_of_lt hb h
          have ha : boundBelow (some a, i₁) v = true := by
            cases i₁ <;> simp [boundBelow]
            · exact hav
            · exact hav.le
          simp [hb, ha]
        · rw [Bool.not_eq_true] at hb
          rw [hb, Bool.and_false]

/-- Helper: membership decomposed into the two bound tests. -/
theorem mem_eq_bounds (r : VRange V) (v : V) :
    r.mem v = (boundAbove (r.min, r.includeMin) v && boundBelow (r.max, r.includeMax) v) := by
  rw [VRange.mem, aboveMin_eq_boundAbove, belowMax_eq_boundBelow]

/-- Helper: a range whose bounds show it empty has no members. -/
theorem not_mem_of_emptyByBounds (r : VRange V) (h : r.emptyByBounds = true) (v : V) :
    r.mem v = false := by
  rcases r with ⟨mn, mx, im, ix⟩
  cases mn with
  | none => simp [VRange.emptyByBounds] at h
  | some a =>
    cases mx with
    | none => simp [VRange.emptyByBounds] at h
    | some b =>
      simp only [VRange.emptyByBounds, Bool.or_eq_true, Bool.and_eq_true,
        decide_eq_true_eq, Bool.not_eq_true'] at h
      cases hm : VRange.mem ⟨some a, some b, im, ix⟩ v with
      | false => rfl
      | true =>
        exfalso
        rw [mem_eq_bounds, Bool.and_eq_true] at hm
        obtain ⟨h₁, h₂⟩ := hm
        have hav : a ≤ v := by
          cases im <;> simp [boundAbove] at h₁
          · exact h₁.le
          · exact h₁
        have hvb : v ≤ b := by
          cases ix <;> simp [boundBelow] at h₂
          · exact h₂.le
          · exact h₂
        rcases h with h | ⟨hab, hni⟩
        · exact absurd (hav.trans hvb) (not_le.mpr h)
        · subst hab
          cases im with
          | false =>
            simp [boundAbove] at h₁
            exact absurd (h₁.trans_le hvb) (lt_irrefl a)
          | true =>
            have hix : ix = false := by
              cases ix
              · rfl
              · simp at hni
            subst hix
            simp [boundBelow] at h₂
            exact absurd (hav.trans_lt h₂) (lt_irrefl a)

/-- Helper: `VRange.interR` as the emptiness filter over `interCore`. -/
theorem interR_eq (r₁ r₂ : VRange V) :
    r₁.interR r₂ =
      if (r₁.interCore r₂).emptyByBounds then none else some (r₁.interCore r₂) := rfl

/-- Helper: the candidate intersection range tests membership in both ranges. -/
theorem interCore_mem (r₁ r₂ : VRange V) (v : V) :
    (r₁.interCore r₂).mem v = (r₁.mem v && r₂.mem v) := by
  rw [mem_eq_bounds, VRange.interCore]
  rw [Prod.mk.eta, Prod.mk.eta]
  rw [boundAbove_tightLower, boundBelow_tightUpper, mem_eq_bounds r₁, mem_eq_bounds r₂]
  rw [Bool.and_assoc, Bool.and_assoc]
  rw [Bool.and_left_comm (boundAbove (r₂.min, r₂.includeMin) v)]

/-- Helper: a defined range intersection means membership in both. -/
theorem interR_some_mem {r₁ r₂ r : VRange V} (h : r₁.interR r₂ = some r) (v : V) :
    r.mem v = (r₁.mem v && r₂.mem v) := by
  rw [interR_eq] at h
  by_cases he : (r₁.interCore r₂).emptyByBounds = true
  · rw [if_pos he] at h
    exact absurd h (by simp)
  · rw [if_neg he] at h
    cases h
    exact interCore_mem r₁ r₂ v

/-- Helper: an empty range intersection means no common member. -/
theorem interR_none_mem {r₁ r₂ : VRange V} (h : r₁.interR r₂ = none) (v : V) :
    (r₁.mem v && r₂.mem v) = false := by
  rw [interR_eq] at h
  by_cases he : (r₁.interCore r₂).emptyByBounds = true
  · rw [← interCore_mem]
    exact not_mem_of_emptyByBounds _ he v
  · rw [if_neg he] at h
    exact absurd h (by simp)

/-- Helper: ranges produced by `interRanges` pass the emptiness filter. -/
theorem mem_interRanges_not_empty {l₁ l₂ : List (VRange V)} {r : VRange V}
    (h : r ∈ interRanges l₁ l₂) : r.emptyByBounds = false := by
  rw [interRanges, List.mem_flatMap] at h
  obtain ⟨r₁, _, hr⟩ := h
  rw [List.mem_filterMap] at hr
  obtain ⟨r₂, _, hi⟩ := hr
  rw [interR_eq] at hi
  by_cases he : (r₁.interCore r₂).emptyByBounds = true
  · rw [if_pos he] at hi
    exact absurd hi (by simp)
  · rw [if_neg he] at hi
    cases hi
    exact Bool.not_eq_true _ ▸ he

/-- Helper: membership in the pairwise intersection of two unions. -/
theorem memRanges_interRanges (l₁ l₂ : List (VRange V)) (v : V) :
    memRanges (interRanges l₁ l₂) v = (memRanges l₁ v && memRanges l₂ v) := by
  rw [Bool.eq_iff_iff]
  simp only [memRanges, Bool.and_eq_true, List.any_eq_true]
  constructor
  · rintro ⟨r, hr, hm⟩
    rw [interRanges, List.mem_flatMap] at hr
    obtain ⟨r₁, h₁, hr⟩ := hr
    rw [List.mem_filterMap] at hr
    obtain ⟨r₂, h₂, hi⟩ := hr
    rw [interR_some_mem hi, Bool.and_eq_true] at hm
    exact ⟨⟨r₁, h₁, hm.1⟩, ⟨r₂, h₂, hm.2⟩⟩
  · rintro ⟨⟨r₁, h₁, hm₁⟩, ⟨r₂, h₂, hm₂⟩⟩
    cases hi : r₁.interR r₂ with
    | none =>
      have hff := interR_none_mem hi v
      rw [hm₁, hm₂] at hff
      exact absurd hff (by simp)
    | some r =>
      refine ⟨r, ?_, ?_⟩
      · rw [interRanges, List.mem_flatMap]
        exact ⟨r₁, h₁, List.mem_filterMap.mpr ⟨r₂, h₂, hi⟩⟩
      · rw [interR_some_mem hi, hm₁, hm₂]
        rfl

/-- Helper: the complement of a single range has exactly the non-members. -/
theorem memRanges_compl (r : VRange V) (v : V) :
    memRanges r.compl v = !(r.mem v) := by
  rcases r with ⟨mn, mx, im, ix⟩
  rw [Bool.eq_iff_iff]
  cases mn <;> cases mx <;>
    simp only [VRange.compl, memRanges, VRange.mem, VRange.aboveMin, VRange.belowMax,
      List.any_nil, List.any_cons, List.nil_append, List.append_nil, List.cons_append,
      Bool.or_eq_true, Bool.and_eq_true, Bool.not_eq_true', Bool.and_eq_false_iff,
      Bool.false_eq_true, false_or, or_false, Bool.true_and, Bool.and_true] <;>
    cases im <;> cases ix <;>
    simp [not_le, not_lt, le_or_lt, lt_or_le]

/-- Helper: the fold inside `complRanges` intersects the accumulated union with
each complement. -/
theorem memRanges_complRanges_foldl (l : List (VRange V)) (acc : List (VRange V)) (v : V) :
    memRanges (l.foldl (fun acc r => interRanges acc r.compl) acc) v =
      (memRanges acc v && l.all (fun r => !(r.mem v))) := by
  induction l generalizing acc with
  | nil => simp
  | cons r l ih =>
    rw [List.foldl_cons, ih, memRanges_interRanges, memRanges_compl, List.all_cons,
      Bool.and_assoc]

/-- Helper: `complRanges` has exactly the versions outside the union. -/
theorem memRanges_complRanges (l : List (VRange V)) (v : V) :
    memRanges (complRanges l) v = !(memRanges l v) := by
  rw [complRanges, memRanges_complRanges_foldl]
  have hfull : memRanges [{ : VRange V}] v = true := by
    simp [memRanges, VRange.mem, VRange.aboveMin, VRange.belowMax]
  rw [hfull, Bool.true_and]
  induction l with
  | nil => simp [memRanges]
  | cons r l ih => simp [memRanges, List.any_cons, List.all_cons, ih, Bool.not_or]

/-- Helper: `allows_version` is membership in the specifier range view. -/
theorem allowsVersion_eq_memRanges (s : VersionSpecifier V) (v : V) :
    s.allowsVersion v = memRanges s.ranges v := by
  cases s with
  | any =>
    simp [VersionSpecifier.allowsVersion, VersionSpecifier.ranges, memRanges,
      VRange.mem, VRange.aboveMin, VRange.belowMax]
  | specific w =>
    rw [Bool.eq_iff_iff]
    simp only [VersionSpecifier.allowsVersion, VersionSpecifier.ranges, memRanges,
      List.any_cons, List.any_nil, Bool.or_false, VRange.mem, VRange.aboveMin,
      VRange.belowMax, if_pos rfl, if_true, Bool.and_eq_true, decide_eq_true_eq]
    constructor
    · rintro rfl
      exact ⟨le_refl v, le_refl v⟩
    · rintro ⟨h₁, h₂⟩
      exact le_antisymm h₂ h₁
  | vrange r => simp [VersionSpecifier.allowsVersion, VersionSpecifier.ranges, memRanges]
  | vunion rs => rfl

/-- Helper: over a dense unbounded order, a range that passes the syntactic
emptiness test has a member. -/
theorem exists_mem_of_not_emptyByBounds [DenselyOrdered V] [NoMinOrder V] [NoMaxOrder V]
    [Nonempty V] (r : VRange V) (h : r.emptyByBounds = false) :
    ∃ v, r.mem v = true := by
  rcases r with ⟨mn, mx, im, ix⟩
  cases mn with
  | none =>
    cases mx with
    | none =>
      obtain ⟨v⟩ := (inferInstance : Nonempty V)
      exact ⟨v, by simp [VRange.mem, VRange.aboveMin, VRange.belowMax]⟩
    | some b =>
      cases ix with
      | true => exact ⟨b, by simp [VRange.mem, VRange.aboveMin, VRange.belowMax]⟩
      | false =>
        obtain ⟨v, hv⟩ := exists_lt b
        exact ⟨v, by simp [VRange.mem, VRange.aboveMin, VRange.belowMax, hv]⟩
  | some a =>
    cases mx with
    | none =>
      cases im with
      | true => exact ⟨a, by simp [VRange.mem, VRange.aboveMin, VRange.belowMax]⟩
      | false =>
        obtain ⟨v, hv⟩ := exists_gt a
        exact ⟨v, by simp [VRange.mem, VRange.aboveMin, VRange.belowMax, hv]⟩
    | some b =>
      simp only [VRange.emptyByBounds, Bool.or_eq_false_iff, Bool.and_eq_false_iff,
        decide_eq_false_iff_not, not_lt, Bool.not_eq_false', Bool.and_eq_true] at h
      obtain ⟨hab, hne⟩ := h
      rcases eq_or_lt_of_le hab with heq | hlt
      · subst heq
        rcases hne with hne | ⟨him, hix⟩
        · exact absurd rfl hne
        · exact ⟨a, by simp [VRange.mem, VRange.aboveMin, VRange.belowMax, him, hix]⟩
      · cases im with
        | true =>
          refine ⟨a, ?_⟩
          cases ix <;> simp [VRange.mem, VRange.aboveMin, VRange.belowMax, hlt, hlt.le]
        | false =>
          obtain ⟨v, hav, hvb⟩ := exists_between hlt
          refine ⟨v, ?_⟩
          cases ix <;> simp [VRange.mem, VRange.aboveMin, VRange.belowMax, hav, hvb, hvb.le]

omit [LinearOrder V] in
/-- Helper: the syntactic `is_none` test on a union. -/
theorem isNoneSpec_vunion (l : List (VRange V)) :
    (VersionSpecifier.vunion l).isNoneSpec = l.isEmpty := by
  cases l <;> rfl

/-- Helper: over a dense unbounded order, the syntactic `allows_all` holds
exactly when the first specifier allows every version the second allows. -/
theorem allowsAll_iff [DenselyOrdered V] [NoMinOrder V] [NoMaxOrder V] [Nonempty V]
    (c s : VersionSpecifier V) :
    c.allowsAll s = true ↔
      ∀ v, s.allowsVersion v = true → c.allowsVersion v = true := by
  rw [VersionSpecifier.allowsAll, VersionSpecifier.difference, VersionSpecifier.intersect,
    isNoneSpec_vunion, List.isEmpty_iff]
  constructor
  · intro h v hs
    by_cases hc : c.allowsVersion v = true
    · exact hc
    · exfalso
      rw [Bool.not_eq_true] at hc
      have hm : memRanges (interRanges s.ranges (VersionSpecifier.inverse c).ranges) v = true := by
        rw [memRanges_interRanges, ← allowsVersion_eq_memRanges s v, hs, Bool.true_and]
        show memRanges (complRanges c.ranges) v = true
        rw [memRanges_complRanges, ← allowsVersion_eq_memRanges c v, hc]
        rfl
      rw [h] at hm
      simp [memRanges] at hm
  · intro h
    cases hl : interRanges s.ranges (VersionSpecifier.inverse c).ranges with
    | nil => rfl
    | cons r rest =>
      exfalso
      have hr : r ∈ interRanges s.ranges (VersionSpecifier.inverse c).ranges := by
        rw [hl]
        exact List.mem_cons_self r rest
      obtain ⟨v, hv⟩ := exists_mem_of_not_emptyByBounds r (mem_interRanges_not_empty hr)
      have hm : memRanges (interRanges s.ranges (VersionSpecifier.inverse c).ranges) v = true := by
        rw [memRanges, List.any_eq_true]
        exact ⟨r, hr, hv⟩
      rw [memRanges_interRanges, Bool.and_eq_true, ← allowsVersion_eq_memRanges s v] at hm
      obtain ⟨hsv, hcc⟩ := hm
      have hcv := h v hsv
      have hcc2 : memRanges (complRanges c.ranges) v = true := hcc
      rw [memRanges_complRanges, ← allowsVersion_eq_memRanges c v, hcv] at hcc2
      exact absurd hcc2 (by simp)

/-- C2 counterexample: an optional term whose constraint is `AnyVersion` is
reported satisfied by the empty specifier, although the empty specifier allows
no version of the term's constraint and the claim's special case (which asks
for an empty term constraint) does not apply. -/
theorem C2_optional_term_empty_argument_counterexample :
    Term.satisfies (⟨"a", .any, true⟩ : Term Nat) (.vunion []) = true ∧
    ¬ claimSatisfiesPredicate (⟨"a", .any, true⟩ : Term Nat) (.vunion []) := by
  refine ⟨by decide, ?_⟩
  rintro (h | ⟨_, hc⟩)
  · exact absurd (h 0 rfl) (by decide)
  · exact absurd hc (by decide)

/-- C2: `Term.satisfies t c` holds exactly when `c` allows every version
allowed by the term's constraint, except that an optional term is satisfied
whenever the argument `c` — not the term's own constraint, as the claim has
it — is the empty specifier; proved over any dense unbounded linear version
order. -/
theorem C2_satisfies_characterization [DenselyOrdered V] [NoMinOrder V] [NoMaxOrder V]
    [Nonempty V] (t : Term V) (c : VersionSpecifier V) :
    t.satisfies c = true ↔
      (t.optional = true ∧ c.isNoneSpec = true) ∨
      (∀ v, t.constraint.allowsVersion v = true → c.allowsVersion v = true) := by
  rw [Term.satisfies, Bool.or_eq_true, Bool.and_eq_true, allowsAll_iff]

/-- Witness for C2 at a concrete rational instance: `AnyVersion` satisfies a
non-optional interval term. -/
theorem C2_satisfies_characterization_witness :
    Term.satisfies (⟨"a", .vrange ⟨some (1 : ℚ), some 3, true, true⟩, false⟩ : Term ℚ)
      .any = true :=
  (C2_satisfies_characterization _ _).mpr (Or.inr (fun _ _ => rfl))

end C2Support

end PkmProof
